import Mathlib

/-!
# Verification of `tools/patch_unitree.py`

A shallow embedding, over `List Char`, of the line-oriented text patcher in
`tools/patch_unitree.py`: the per-line comment/uncomment transforms, the
spawn-block header/footer matchers, the parenthesis-depth region locator,
the sub-block finder, the whole-document spawn-mode patch, and the
`UNITREE_*_DIR` directive rewriter.

Python strings are modelled as `List Char`.  The regular expressions used by
the script are simple anchored patterns; their exact backtracking behaviour
(including `$` matching before a final newline, greedy optional groups, and
the non-greedy `.*?`) is reproduced by explicit recursive functions.
Whitespace classes model the ASCII behaviour of Python's `str.strip`,
`str.splitlines` and the `re` module's `\s` (the config files patched by the
script are ASCII; the rare non-ASCII Unicode space characters that are not
also line breaks are not treated as whitespace here).
-/

namespace PatchUnitree

/-- Characters on which Python `str.splitlines` splits (besides the two
character sequence `"\r\n"`). -/
def isLineBreak (c : Char) : Bool :=
  c = '\n' || c = '\r' || c = '\x0b' || c = '\x0c' ||
  c = '\x1c' || c = '\x1d' || c = '\x1e' || c = '\x85' ||
  c = '\u2028' || c = '\u2029'

/-- Whitespace as seen by `str.strip()` / the regex class `\s`
(ASCII model, plus the splitlines break characters). -/
def pyIsSpace (c : Char) : Bool :=
  c = ' ' || c = '\t' || isLineBreak c

/-- The character class `[ \t]` used for the `indent` groups. -/
def isIndentChar (c : Char) : Bool :=
  c = ' ' || c = '\t'

/-- A Python string (one line of a file, in most uses below). -/
abbrev Line := List Char

/-- `line.strip() == ""`. -/
def isBlank (l : Line) : Bool := l.all pyIsSpace

/-- `line.rstrip("\n")`: strip all trailing `'\n'` characters. -/
def rstripNl (l : Line) : Line :=
  (l.reverse.dropWhile (fun c => c = '\n')).reverse

/-- Python `str.splitlines(keepends=True)`, worker: `acc` holds the current
(unfinished) line in reverse. -/
def splitGo : List Char → List Char → List Line
  | [], acc => if acc = [] then [] else [acc.reverse]
  | [c], acc =>
    if isLineBreak c then [acc.reverse ++ [c]] else [(c :: acc).reverse]
  | c :: d :: t, acc =>
    if c = '\r' ∧ d = '\n' then (acc.reverse ++ ['\r', '\n']) :: splitGo t []
    else if isLineBreak c then (acc.reverse ++ [c]) :: splitGo (d :: t) []
    else splitGo (d :: t) (c :: acc)

/-- `src.splitlines(True)`. -/
def splitlinesTrue (s : List Char) : List Line := splitGo s []

/-- `"".join(lines)`. -/
def joinLines (ls : List Line) : List Char := ls.flatten

/-!
## The `(.*?)(\r?\n)?$` tail of the comment/uncomment regexes

`matchTail r` is the result of running `(.*?)(\r?\n)?$` at position `r`
(Python semantics: `.` does not match `'\n'`; `$` matches at the end of the
string or just before a final `'\n'`; `.*?` is non-greedy; `(\r?\n)?` is
greedy).  It returns the two captured groups, or `none` if the whole match
fails (which happens exactly when a non-final `'\n'` blocks the scan).
-/
def matchTail : List Char → Option (List Char × List Char)
  | [] => some ([], [])
  | '\n' :: t =>
    if t = [] ∨ t = ['\n'] then some ([], ['\n']) else none
  | '\r' :: '\n' :: u =>
    if u = [] ∨ u = ['\n'] then some ([], ['\r', '\n'])
    else (matchTail ('\n' :: u)).map (fun p => ('\r' :: p.1, p.2))
  | c :: t => (matchTail t).map (fun p => (c :: p.1, p.2))

/-!
## `comment_line` and `uncomment_line`
-/

/-- `comment_line` from the script: regex `^([ \t]*)(.*?)(\r?\n)?$`, then
`<indent># <rest><nl>` unless the line is blank or `rest` already starts
(after whitespace) with `#`. -/
def comment_line (line : Line) : Line :=
  if isBlank line then line
  else
    let indent := line.takeWhile isIndentChar
    match matchTail (line.dropWhile isIndentChar) with
    | none => line
    | some (rest, nl) =>
      if (rest.dropWhile pyIsSpace).head? = some '#' then line
      else indent ++ '#' :: ' ' :: rest ++ nl

/-- `uncomment_line` from the script: regex `^([ \t]*)#\s?(.*?)(\r?\n)?$`,
then `<indent><rest><nl>`.  The greedy `\s?` consumes one whitespace
character after `#` when the remainder still matches. -/
def uncomment_line (line : Line) : Line :=
  if isBlank line then line
  else
    let indent := line.takeWhile isIndentChar
    match line.dropWhile isIndentChar with
    | '#' :: r1 =>
      let step : Option (List Char × List Char) :=
        match r1 with
        | c :: r2 => if pyIsSpace c then (matchTail r2 <|> matchTail r1) else matchTail r1
        | [] => matchTail []
      match step with
      | some (rest, nl) => indent ++ rest ++ nl
      | none => line
    | _ => line

/-!
## Spawn header / footer / config-start matchers

Each matcher receives `line.rstrip("\n")`, mirroring the script.
-/

/-- The two spawn kinds `UnitreeUrdfFileCfg` / `UnitreeUsdFileCfg`
(also the `--mode` selector `urdf` / `usd`). -/
inductive SpawnKind where
  | urdf
  | usd
deriving DecidableEq, Repr

/-- Match a literal and return the remainder. -/
def litThen (lit : List Char) (r : List Char) : Option (List Char) :=
  if lit.isPrefixOf r then some (r.drop lit.length) else none

/-- Strip the optional `(?P<prefix>#\s*)?` comment prefix (the following
pattern element in both uses starts with a non-`#` non-space character, so
committing to the prefix when `#` is present is exact). -/
def dropHashPrefix (r : List Char) : List Char :=
  match r with
  | '#' :: t => t.dropWhile pyIsSpace
  | _ => r

/-- `\)\s*,\s*$` (a trailing `\s*$` matches exactly when the remainder is
all whitespace). -/
def footerCore (r : List Char) : Bool :=
  match r with
  | ')' :: t =>
    match t.dropWhile pyIsSpace with
    | ',' :: u => u.all pyIsSpace
    | _ => false
  | _ => false

/-- `SPAWN_FOOTER_ANY_RE.match(core)`: `^([ \t]*)(#\s*)?\)\s*,\s*$`. -/
def isSpawnFooter (core : Line) : Bool :=
  footerCore (dropHashPrefix (core.dropWhile isIndentChar))

/-- `spawn\s*=\s*(Unitree(?:Urdf|Usd)FileCfg)\s*\(\s*$`. -/
def headerCore (r : List Char) : Option SpawnKind :=
  match litThen ['s', 'p', 'a', 'w', 'n'] r with
  | none => none
  | some r1 =>
    match r1.dropWhile pyIsSpace with
    | '=' :: r2 =>
      match litThen ['U', 'n', 'i', 't', 'r', 'e', 'e'] (r2.dropWhile pyIsSpace) with
      | none => none
      | some r4 =>
        let kindAndRest : Option (SpawnKind × List Char) :=
          match litThen ['U', 'r', 'd', 'f'] r4 with
          | some r5 => some (SpawnKind.urdf, r5)
          | none => (litThen ['U', 's', 'd'] r4).map (fun r5 => (SpawnKind.usd, r5))
        match kindAndRest with
        | none => none
        | some (k, r5) =>
          match litThen ['F', 'i', 'l', 'e', 'C', 'f', 'g'] r5 with
          | none => none
          | some r6 =>
            match r6.dropWhile pyIsSpace with
            | '(' :: r7 => if r7.all pyIsSpace then some k else none
            | _ => none
    | _ => none

/-- `SPAWN_HEADER_ANY_RE.match(core)`:
`^([ \t]*)(#\s*)?spawn\s*=\s*(Unitree(?:Urdf|Usd)FileCfg)\s*\(\s*$`. -/
def matchSpawnHeader (core : Line) : Option SpawnKind :=
  headerCore (dropHashPrefix (core.dropWhile isIndentChar))

/-- The character class `[A-Z0-9_]` of the config-variable pattern. -/
def isVarChar (c : Char) : Bool :=
  ('A' ≤ c && c ≤ 'Z') || ('0' ≤ c && c ≤ '9') || c = '_'

/-- `CFG_START_RE.match(core)`:
`^([ \t]*)([A-Z0-9_]+_CFG)\s*=\s*UnitreeArticulationCfg\s*\(\s*$`.
`[A-Z0-9_]+_CFG` matches exactly when the maximal `[A-Z0-9_]` run ends in
`_CFG` and has length at least 5. -/
def isCfgStart (core : Line) : Bool :=
  let r := core.dropWhile isIndentChar
  let run := r.takeWhile isVarChar
  let rest := r.dropWhile isVarChar
  if 5 ≤ run.length && ['_', 'C', 'F', 'G'].isSuffixOf run then
    match rest.dropWhile pyIsSpace with
    | '=' :: r2 =>
      match litThen
          ['U', 'n', 'i', 't', 'r', 'e', 'e', 'A', 'r', 't', 'i', 'c', 'u',
           'l', 'a', 't', 'i', 'o', 'n', 'C', 'f', 'g'] (r2.dropWhile pyIsSpace) with
      | none => false
      | some r3 =>
        match r3.dropWhile pyIsSpace with
        | '(' :: r4 => r4.all pyIsSpace
        | _ => false
    | _ => false
  else false

/-- Header match of a raw line (the script always feeds `line.rstrip("\n")`
to the regex). -/
def headerOf (l : Line) : Option SpawnKind := matchSpawnHeader (rstripNl l)

/-- Footer match of a raw line. -/
def footerAt (l : Line) : Bool := isSpawnFooter (rstripNl l)

/-- Config-block start match of a raw line. -/
def cfgStartAt (l : Line) : Bool := isCfgStart (rstripNl l)

/-!
## Region locator, sub-block finder, block switcher, whole-file patch
-/

/-- Net parenthesis effect of one line on the depth counter of
`find_cfg_block_end` (the per-character loop only ever adds `+1` per `'('`
and `-1` per `')'`, and the depth is inspected after the whole line). -/
def lineDelta (l : Line) : Int :=
  (l.count '(' : Int) - (l.count ')' : Int)

/-- Whether a line sets `started := True` (it contains a `'('`). -/
def hasOpen (l : Line) : Bool := l.any (fun c => c = '(')

/-- Worker for `find_cfg_block_end`: scan the remaining lines, `k` lines
already consumed, current `depth` and `started`.  Returns the relative index
of the first line after which `started ∧ depth ≤ 0`, or (sticking to the
Python `return len(lines) - 1`) the last relative index when the scan runs
off the end. -/
def cfgEndGo : List Line → Nat → Int → Bool → Nat
  | [], k, _, _ => k - 1
  | l :: rest, k, depth, started =>
    let depth' := depth + lineDelta l
    let started' := started || hasOpen l
    if started' ∧ depth' ≤ 0 then k
    else cfgEndGo rest (k + 1) depth' started'

/-- `find_cfg_block_end(lines, start_idx)`.  (For `start_idx ≥ len(lines)`
the Python function returns `len(lines) - 1`, possibly `-1`; the call sites
guarantee `start_idx < len(lines)`, and the `Nat`-truncated value is used in
the out-of-range case.) -/
def find_cfg_block_end (lines : List Line) (startIdx : Nat) : Nat :=
  if startIdx < lines.length then startIdx + cfgEndGo (lines.drop startIdx) 0 0 false
  else lines.length - 1

/-- Relative index of the first footer line in a list. -/
def firstFooterIdx : List Line → Option Nat
  | [] => none
  | l :: t =>
    if footerAt l then some 0
    else (firstFooterIdx t).map (fun o => o + 1)

/-- `find_matching_footer(lines, start_idx)`: first index `j > start_idx`
with `SPAWN_FOOTER_ANY_RE.match(lines[j].rstrip("\n"))`. -/
def find_matching_footer (lines : List Line) (startIdx : Nat) : Option Nat :=
  (firstFooterIdx (lines.drop (startIdx + 1))).map (fun o => startIdx + 1 + o)

/-- Loop of `locate_spawn_blocks_within`.  The `fuel` argument makes the
recursion structural (the loop index strictly increases, so the wrapper's
`blockEnd + 1 - blockStart` budget always reaches the loop's own exit
condition first; running out of fuel can only happen once `i > blockEnd`,
where the result is the same `(urdf, usd)`). -/
def locateGo (lines : List Line) (blockEnd : Nat) :
    Nat → Nat → Option (Nat × Nat) → Option (Nat × Nat) →
    Option (Nat × Nat) × Option (Nat × Nat)
  | 0, _, urdf, usd => (urdf, usd)
  | fuel + 1, i, urdf, usd =>
    if i ≤ blockEnd then
      match headerOf ((lines.get? i).getD []) with
      | some kind =>
        match firstFooterIdx (lines.drop (i + 1)) with
        | none => locateGo lines blockEnd fuel (i + 1) urdf usd
        | some o =>
          if blockEnd < i + 1 + o then locateGo lines blockEnd fuel (i + 1) urdf usd
          else
            match kind with
            | SpawnKind.urdf =>
              if urdf = none then
                locateGo lines blockEnd fuel (i + 1 + o + 1) (some (i, i + 1 + o)) usd
              else locateGo lines blockEnd fuel (i + 1 + o + 1) urdf usd
            | SpawnKind.usd =>
              if usd = none then
                locateGo lines blockEnd fuel (i + 1 + o + 1) urdf (some (i, i + 1 + o))
              else locateGo lines blockEnd fuel (i + 1 + o + 1) urdf usd
      | none => locateGo lines blockEnd fuel (i + 1) urdf usd
    else (urdf, usd)

/-- `locate_spawn_blocks_within(lines, block_start, block_end)`. -/
def locate_spawn_blocks_within (lines : List Line) (blockStart blockEnd : Nat) :
    Option (Nat × Nat) × Option (Nat × Nat) :=
  locateGo lines blockEnd (blockEnd + 1 - blockStart) blockStart none none

/-- `switch_spawn_block(lines, span, enable)` (functional version of the
in-place per-index update). -/
def switch_spawn_block (lines : List Line) (span : Nat × Nat) (enable : Bool) :
    List Line :=
  lines.mapIdx (fun k l =>
    if span.1 ≤ k ∧ k ≤ span.2 then
      if enable then uncomment_line l else comment_line l
    else l)

/-- The two `switch_spawn_block` calls of one loop iteration of
`patch_spawn_modes` (enable the requested kind's span, then disable the
other kind's span). -/
def applySwitches (mode : SpawnKind) (lines : List Line)
    (urdfSpan usdSpan : Option (Nat × Nat)) : List Line :=
  match mode with
  | SpawnKind.urdf =>
    let a := match urdfSpan with
      | some sp => switch_spawn_block lines sp true
      | none => lines
    match usdSpan with
    | some sp => switch_spawn_block a sp false
    | none => a
  | SpawnKind.usd =>
    let a := match usdSpan with
      | some sp => switch_spawn_block lines sp true
      | none => lines
    match urdfSpan with
    | some sp => switch_spawn_block a sp false
    | none => a

theorem switch_spawn_block_length (lines : List Line) (span : Nat × Nat)
    (enable : Bool) : (switch_spawn_block lines span enable).length = lines.length := by
  simp [switch_spawn_block]

theorem applySwitches_length (mode : SpawnKind) (lines : List Line)
    (urdfSpan usdSpan : Option (Nat × Nat)) :
    (applySwitches mode lines urdfSpan usdSpan).length = lines.length := by
  cases mode <;> cases urdfSpan <;> cases usdSpan <;>
    simp [applySwitches, switch_spawn_block_length]

theorem le_find_cfg_block_end (lines : List Line) (i : Nat)
    (h : i < lines.length) : i ≤ find_cfg_block_end lines i := by
  simp only [find_cfg_block_end, if_pos h]
  exact Nat.le_add_right _ _

/-- Main loop of `patch_spawn_modes`: scan for `CFG_START_RE` lines,
delimit the block, locate the spawn sub-blocks, switch them, continue after
the block.  Accumulates the three counters.  The `fuel` argument makes the
recursion structural; the wrapper passes `lines.length`, which suffices
because the index strictly increases and the line count never changes. -/
def patchGo (mode : SpawnKind) :
    Nat → List Line → Nat → Nat → Nat → Nat → List Line × Nat × Nat × Nat
  | 0, lines, _, cfg, urdfSeen, usdSeen => (lines, cfg, urdfSeen, usdSeen)
  | fuel + 1, lines, i, cfg, urdfSeen, usdSeen =>
    if h : i < lines.length then
      if cfgStartAt (lines.get ⟨i, h⟩) then
        let blockEnd := find_cfg_block_end lines i
        let spans := locate_spawn_blocks_within lines i blockEnd
        patchGo mode fuel (applySwitches mode lines spans.1 spans.2) (blockEnd + 1)
          (cfg + 1)
          (urdfSeen + if spans.1.isSome then 1 else 0)
          (usdSeen + if spans.2.isSome then 1 else 0)
      else patchGo mode fuel lines (i + 1) cfg urdfSeen usdSeen
    else (lines, cfg, urdfSeen, usdSeen)

/-- `patch_spawn_modes(src, mode)`: returns
`(new_src, cfg_blocks, urdf_seen, usd_seen)`. -/
def patch_spawn_modes (src : List Char) (mode : SpawnKind) :
    List Char × Nat × Nat × Nat :=
  let r := patchGo mode (splitlinesTrue src).length (splitlinesTrue src) 0 0 0 0
  (joinLines r.1, r.2)

/-!
## The `UNITREE_ROS_DIR` / `UNITREE_MODEL_DIR` directive rewriter
-/

/-- The two directive names matched by `DIR_ASSIGN_RE`. -/
inductive DirName where
  | rosDir
  | modelDir
deriving DecidableEq, Repr

/-- The characters of a directive name. -/
def DirName.chars : DirName → List Char
  | DirName.rosDir =>
    ['U', 'N', 'I', 'T', 'R', 'E', 'E', '_', 'R', 'O', 'S', '_', 'D', 'I', 'R']
  | DirName.modelDir =>
    ['U', 'N', 'I', 'T', 'R', 'E', 'E', '_', 'M', 'O', 'D', 'E', 'L', '_', 'D', 'I', 'R']

/-- `UNITREE_(?:ROS|MODEL)_DIR` (the two alternatives are not prefixes of
one another, so trying them in order is exact). -/
def matchDirName (r : List Char) : Option (DirName × List Char) :=
  match litThen DirName.rosDir.chars r with
  | some t => some (DirName.rosDir, t)
  | none => (litThen DirName.modelDir.chars r).map (fun t => (DirName.modelDir, t))

/-- The single-quote character (written by code point to keep the source
free of tricky literals). -/
def singleQuote : Char := Char.ofNat 39

/-- The tail pattern `(?P<tail>[ \t]*(#.*)?)$` at the given remainder;
returns the captured `tail` group on success (`$` may sit just before one
final `'\n'`, which is then not part of any group). -/
def dirTail (t : List Char) : Option (List Char) :=
  let ws := t.takeWhile isIndentChar
  match t.dropWhile isIndentChar with
  | [] => some ws
  | ['\n'] => some ws
  | '#' :: rest =>
    let body := rest.takeWhile (fun c => c ≠ '\n')
    let rem := rest.dropWhile (fun c => c ≠ '\n')
    if rem = [] ∨ rem = ['\n'] then some (ws ++ '#' :: body) else none
  | _ => none

/-- The non-greedy `(?P<val>.*?)(?P=q)` followed by the tail pattern: find
the shortest `val` whose closing quote is followed by a matching tail. -/
def findVal (q : Char) : List Char → Option (List Char × List Char)
  | [] => none
  | c :: rest =>
    if c = q then
      match dirTail rest with
      | some tl => some ([], tl)
      | none => (findVal q rest).map (fun p => (c :: p.1, p.2))
    else if c = '\n' then none
    else (findVal q rest).map (fun p => (c :: p.1, p.2))

/-- `DIR_ASSIGN_RE.match(core)` where `core = ln.rstrip("\n")`:
returns `(indent, name, val, tail)`. -/
def matchDirAssign (core : List Char) :
    Option (List Char × DirName × List Char × List Char) :=
  let indent := core.takeWhile isIndentChar
  match matchDirName (core.dropWhile isIndentChar) with
  | none => none
  | some (name, r1) =>
    match r1.dropWhile pyIsSpace with
    | '=' :: r2 =>
      match r2.dropWhile pyIsSpace with
      | q :: r3 =>
        if q = '"' ∨ q = singleQuote then
          (findVal q r3).map (fun p => (indent, name, p.1, p.2))
        else none
      | [] => none
    | _ => none

/-- The replacement values passed to `replace_dir_assignments` (the
`values` dict of the script: each key is present or absent). -/
structure DirValues where
  ros : Option (List Char)
  model : Option (List Char)

/-- `m.group("name") in values` and `values[name]`. -/
def DirValues.lookup (values : DirValues) : DirName → Option (List Char)
  | DirName.rosDir => values.ros
  | DirName.modelDir => values.model

/-- One iteration of the `replace_dir_assignments` loop: rewrite the line
to `f'{indent}{name} = "{values[name]}"{tail}\n'` when the directive
pattern matches `ln.rstrip("\n")` and the name is in `values`. -/
def replaceDirLine (values : DirValues) (ln : Line) : Line :=
  match matchDirAssign (rstripNl ln) with
  | some (indent, name, _val, tail) =>
    match values.lookup name with
    | some v => indent ++ name.chars ++ [' ', '=', ' ', '"'] ++ v ++ '"' :: tail ++ ['\n']
    | none => ln
  | none => ln

/-- `replace_dir_assignments(src, values)`. -/
def replace_dir_assignments (src : List Char) (values : DirValues) : List Char :=
  joinLines ((splitlinesTrue src).map (replaceDirLine values))

/-!
## Line decomposition: body and terminator

A line produced by `splitlines(True)` is a break-free body followed by at
most one terminator (`"\r\n"` or a single break character).  The lemmas in
this section characterise `matchTail`, `comment_line` and `uncomment_line`
on such lines.
-/

/-- Break-free character data. -/
def noBreak (x : List Char) : Bool := x.all (fun c => !isLineBreak c)

/-- The terminators a `splitlines(True)` line can carry. -/
def validTerm (t : List Char) : Bool :=
  match t with
  | [] => true
  | [c] => isLineBreak c
  | ['\r', '\n'] => true
  | _ => false

/-- The trailing terminator of a line (`[]` if unterminated). -/
def termOf (l : Line) : List Char :=
  match l.reverse.head? with
  | none => []
  | some c =>
    if c = '\n' then
      if l.reverse.tail.head? = some '\r' then ['\r', '\n'] else ['\n']
    else if isLineBreak c then [c] else []

theorem validTerm_cases {t : List Char} (h : validTerm t = true) :
    t = [] ∨ t = ['\r', '\n'] ∨ (∃ c, t = [c] ∧ isLineBreak c = true) := by
  unfold validTerm at h
  split at h
  · left; rfl
  · right; right; exact ⟨_, rfl, h⟩
  · right; left; rfl
  · simp at h

theorem ne_nl_of_not_break {a : Char} (h : isLineBreak a = false) : a ≠ '\n' := by
  rintro rfl; simp [isLineBreak] at h

theorem ne_cr_of_not_break {a : Char} (h : isLineBreak a = false) : a ≠ '\r' := by
  rintro rfl; simp [isLineBreak] at h

theorem break_not_indent {c : Char} (h : isLineBreak c = true) :
    isIndentChar c = false := by
  simp only [isLineBreak, Bool.or_eq_true, decide_eq_true_eq] at h
  rcases h with ((((((((rfl | rfl) | rfl) | rfl) | rfl) | rfl) | rfl) | rfl) | rfl) | rfl <;> rfl

theorem matchTail_cons {c : Char} (hn : c ≠ '\n') (hr : c ≠ '\r') (t : List Char) :
    matchTail (c :: t) = (matchTail t).map (fun p => (c :: p.1, p.2)) := by
  rw [matchTail.eq_def]
  split
  · rename_i heq; simp at heq
  · rename_i heq; simp only [List.cons.injEq] at heq; exact absurd heq.1 hn
  · rename_i heq; simp only [List.cons.injEq] at heq; exact absurd heq.1 hr
  · rename_i heq; simp only [List.cons.injEq] at heq
    obtain ⟨rfl, rfl⟩ := heq; rfl

/-- `matchTail` on a decomposed line: the split into `(rest, nl)`. -/
theorem matchTail_line (b t : List Char) (hb : noBreak b = true)
    (ht : validTerm t = true) :
    matchTail (b ++ t) =
      some (if t = ['\n'] ∨ t = ['\r', '\n'] then (b, t) else (b ++ t, [])) := by
  induction b with
  | nil =>
    rcases validTerm_cases ht with rfl | rfl | ⟨c, rfl, hc⟩
    · simp [matchTail]
    · simp [matchTail]
    · by_cases h1 : c = '\n'
      · subst h1; simp [matchTail]
      · by_cases h2 : c = '\r'
        · subst h2; simp [matchTail]
        · rw [List.nil_append, matchTail_cons h1 h2]
          simp [matchTail, h1, fun h : [c] = ['\r', '\n'] => h2 (by injection h)]
  | cons a b ih =>
    simp only [noBreak, List.all_cons, Bool.and_eq_true, Bool.not_eq_true'] at hb
    obtain ⟨ha, hb⟩ := hb
    rw [List.cons_append,
      matchTail_cons (ne_nl_of_not_break ha) (ne_cr_of_not_break ha), ih hb]
    split <;> rfl


theorem noBreak_mem {b : List Char} (hb : noBreak b = true) {d : Char}
    (hd : d ∈ b) : isLineBreak d = false := by
  have := List.all_eq_true.mp hb d hd
  simpa using this

theorem noBreak_append {x y : List Char} :
    noBreak (x ++ y) = (noBreak x && noBreak y) := by
  simp [noBreak, List.all_append]

/-- `termOf` of a decomposed line is its terminator. -/
theorem termOf_append (b t : List Char) (hb : noBreak b = true)
    (ht : validTerm t = true) : termOf (b ++ t) = t := by
  rcases validTerm_cases ht with rfl | rfl | ⟨c, rfl, hc⟩
  · rw [List.append_nil]
    unfold termOf
    cases hr : b.reverse.head? with
    | none => rfl
    | some c =>
      have hcb : c ∈ b := by
        rw [← List.mem_reverse]
        exact List.mem_of_mem_head? hr
      have hcc := noBreak_mem hb hcb
      simp [hcc, ne_nl_of_not_break hcc]
  · unfold termOf
    simp [List.reverse_append]
  · unfold termOf
    rw [List.reverse_append]
    by_cases h1 : c = '\n'
    · subst h1
      simp only [List.reverse_cons, List.reverse_nil, List.nil_append,
        List.cons_append, List.head?_cons, List.tail_cons, if_pos rfl]
      cases hr : b.reverse.head? with
      | none => simp
      | some d =>
        have hdb : d ∈ b := by
          rw [← List.mem_reverse]; exact List.mem_of_mem_head? hr
        have hdd := noBreak_mem hb hdb
        simp [hr, ne_cr_of_not_break hdd]
    · simp [h1, hc]

/-- Indentation prefix extraction on a decomposed string. -/
theorem takeWhile_append_of_all {p : Char → Bool} {a x : List Char}
    (ha : a.all p = true) (hx : ∀ c, x.head? = some c → p c = false) :
    (a ++ x).takeWhile p = a ∧ (a ++ x).dropWhile p = x := by
  induction a with
  | nil =>
    cases x with
    | nil => simp
    | cons c r => simp [List.takeWhile_cons, List.dropWhile_cons, hx c rfl]
  | cons d a ih =>
    simp only [List.all_cons, Bool.and_eq_true] at ha
    have := ih ha.2
    simp [List.takeWhile_cons, List.dropWhile_cons, ha.1, this.1, this.2]

theorem pyIsSpace_of_indent {c : Char} (h : isIndentChar c = true) :
    pyIsSpace c = true := by
  simp only [isIndentChar, Bool.or_eq_true, decide_eq_true_eq] at h
  rcases h with rfl | rfl <;> rfl

theorem pyIsSpace_of_break {c : Char} (h : isLineBreak c = true) :
    pyIsSpace c = true := by
  simp [pyIsSpace, h]

theorem indent_not_break {c : Char} (h : isIndentChar c = true) :
    isLineBreak c = false := by
  simp only [isIndentChar, Bool.or_eq_true, decide_eq_true_eq] at h
  rcases h with rfl | rfl <;> rfl


/-- The line carries the comment marker right after its indentation. -/
def marked (l : Line) : Bool :=
  decide ((l.dropWhile isIndentChar).head? = some '#')

theorem head_not_indent_restt {rest t : List Char}
    (hrh : ∀ c, rest.head? = some c → isIndentChar c = false)
    (ht : validTerm t = true) :
    ∀ c, (rest ++ t).head? = some c → isIndentChar c = false := by
  intro c hc
  cases rest with
  | nil =>
    simp only [List.nil_append] at hc
    rcases validTerm_cases ht with rfl | rfl | ⟨d, rfl, hd⟩
    · simp at hc
    · simp only [List.head?_cons, Option.some.injEq] at hc
      subst hc; rfl
    · simp only [List.head?_cons, Option.some.injEq] at hc
      subst hc; exact break_not_indent hd
  | cons d r => exact hrh c (by simpa using hc)

theorem comment_line_blank {l : Line} (h : isBlank l = true) :
    comment_line l = l := by
  simp [comment_line, h]

theorem uncomment_line_blank {l : Line} (h : isBlank l = true) :
    uncomment_line l = l := by
  simp [uncomment_line, h]

/-- A line without the marker after its indentation is untouched by
`uncomment_line`. -/
theorem uncomment_line_unmarked {l : Line} (h : marked l = false) :
    uncomment_line l = l := by
  simp only [marked, decide_eq_false_iff_not] at h
  unfold uncomment_line
  split
  · rfl
  · split
    · rename_i heq
      exact absurd (by rw [heq]; rfl) h
    · rfl

/-- `comment_line` on a decomposed non-blank, unmarked line. -/
theorem comment_line_genuine (ind rest t : List Char)
    (hi : ind.all isIndentChar = true) (hb : noBreak rest = true)
    (hrh : ∀ c, rest.head? = some c → isIndentChar c = false)
    (ht : validTerm t = true)
    (hnb : rest.all pyIsSpace = false)
    (hnh : ¬ (rest.dropWhile pyIsSpace).head? = some '#') :
    comment_line (ind ++ (rest ++ t)) = ind ++ '#' :: ' ' :: rest ++ t := by
  have hdec := takeWhile_append_of_all hi (head_not_indent_restt hrh ht)
  have hblank : isBlank (ind ++ (rest ++ t)) = false := by
    simp only [isBlank, List.all_append, Bool.and_eq_false_iff]
    right; left; exact hnb
  have hne : rest.dropWhile pyIsSpace ≠ [] := by
    intro hcon
    have : rest.all pyIsSpace = true := by
      rw [← List.takeWhile_append_dropWhile (p := pyIsSpace) (l := rest), hcon,
        List.append_nil]
      exact List.all_takeWhile ..
    rw [this] at hnb; exact Bool.true_eq_false ▸ hnb
  have hdw : (rest ++ t).dropWhile pyIsSpace = rest.dropWhile pyIsSpace ++ t := by
    rw [List.dropWhile_append]
    simp [hne]
  unfold comment_line
  rw [hblank]
  simp only [Bool.false_eq_true, if_false]
  rw [hdec.1, hdec.2, matchTail_line rest t hb ht]
  by_cases hcase : t = ['\n'] ∨ t = ['\r', '\n']
  · rw [if_pos hcase]
    simp [hnh]
  · rw [if_neg hcase]
    simp [hnh, hdw, List.head?_append_of_ne_nil _ hne]

/-- `uncomment_line` on a decomposed marked line. -/
theorem uncomment_line_genuine (ind w t : List Char)
    (hi : ind.all isIndentChar = true) (hw : noBreak w = true)
    (ht : validTerm t = true) :
    uncomment_line (ind ++ '#' :: (w ++ t)) =
      match w with
      | [] => if t = ['\r', '\n'] then ind ++ ['\n'] else ind
      | a :: w' => if pyIsSpace a then ind ++ w' ++ t else ind ++ (w ++ t) := by
  have hhash : pyIsSpace '#' = false := by decide
  have hdec := takeWhile_append_of_all (x := '#' :: (w ++ t)) hi
    (by intro c hc; simp only [List.head?_cons, Option.some.injEq] at hc; subst hc; rfl)
  have hblank : isBlank (ind ++ '#' :: (w ++ t)) = false := by
    simp only [isBlank, List.all_append, List.all_cons, hhash, Bool.false_and,
      Bool.and_false]
  unfold uncomment_line
  rw [hblank]
  simp only [Bool.false_eq_true, if_false]
  rw [hdec.1, hdec.2]
  cases w with
  | nil =>
    have hsp1 : pyIsSpace '\n' = true := by decide
    have hsp2 : pyIsSpace '\r' = true := by decide
    rcases validTerm_cases ht with rfl | rfl | ⟨c, rfl, hc⟩
    · simp [matchTail, Option.orElse]
    · simp [matchTail, hsp2, Option.orElse]
    · by_cases h1 : c = '\n'
      · subst h1
        simp [matchTail, hsp1, Option.orElse]
      · have hcs : pyIsSpace c = true := pyIsSpace_of_break hc
        simp [matchTail, hcs, h1, Option.orElse]
  | cons a w' =>
    simp only [noBreak, List.all_cons, Bool.and_eq_true, Bool.not_eq_true'] at hw
    obtain ⟨ha, hw⟩ := hw
    have hml := matchTail_line w' t hw ht
    by_cases hsp : pyIsSpace a = true
    · simp only [List.cons_append] at hml ⊢
      simp [hsp, hml, Option.orElse]
      split
      · simp
      · simp
    · simp only [List.cons_append] at hml ⊢
      simp [hsp, matchTail_cons (ne_nl_of_not_break ha) (ne_cr_of_not_break ha),
        hml, Option.orElse]
      split
      · simp
      · simp


theorem noBreak_of_indent {x : List Char} (h : x.all isIndentChar = true) :
    noBreak x = true := by
  simp only [noBreak, List.all_eq_true] at *
  intro c hc
  simpa using indent_not_break (h c hc)

/-- Stripping one marker still leaves a marker: the line was double-marked. -/
def singleMark (l : Line) : Bool := ! marked (uncomment_line l)

/-- The line is just indentation, the marker, and a (possibly empty)
terminator. -/
def bareHash (l : Line) : Bool :=
  match l.dropWhile isIndentChar with
  | '#' :: r => validTerm r
  | _ => false

/-- Structural result of `comment_line`: either the line is returned
untouched, or the regex matched and the clean-commented line is returned. -/
theorem comment_line_cases (l : Line) :
    comment_line l = l ∨
    ∃ rest nl, matchTail (l.dropWhile isIndentChar) = some (rest, nl) ∧
      ¬ (rest.dropWhile pyIsSpace).head? = some '#' ∧
      comment_line l = l.takeWhile isIndentChar ++ '#' :: ' ' :: rest ++ nl := by
  unfold comment_line
  split
  · left; rfl
  · split
    · left; rfl
    · rename_i p rest nl heq
      split
      · left; rfl
      · rename_i hnh
        right; exact ⟨rest, nl, heq, hnh, rfl⟩

/-- `comment_line` is idempotent on every string. -/
theorem comment_line_idem (l : Line) :
    comment_line (comment_line l) = comment_line l := by
  rcases comment_line_cases l with h | ⟨rest, nl, hmt, hnh, h⟩
  · rw [h, h]
  · rw [h]
    have hind : (l.takeWhile isIndentChar).all isIndentChar = true :=
      List.all_takeWhile ..
    have hdec := takeWhile_append_of_all (x := '#' :: (' ' :: (rest ++ nl))) hind
      (by intro c hc; simp only [List.head?_cons, Option.some.injEq] at hc
          subst hc; rfl)
    have hblank :
        isBlank (l.takeWhile isIndentChar ++ '#' :: (' ' :: (rest ++ nl))) = false := by
      simp [isBlank, List.all_append, (by decide : pyIsSpace '#' = false)]
    unfold comment_line
    simp only [List.append_assoc, List.cons_append]
    rw [hblank]
    simp only [Bool.false_eq_true, if_false]
    rw [hdec.2, matchTail_cons (c := '#') (by decide) (by decide),
      matchTail_cons (c := ' ') (by decide) (by decide)]
    cases hmt2 : matchTail (rest ++ nl) with
    | none => rfl
    | some p =>
      simp [List.dropWhile_cons, (by decide : pyIsSpace '#' = false)]

/-!
## Claims C4, C5, C6: the comment/uncomment round-trip properties
-/

/-- **C4.**  For every non-blank line (decomposed as indentation `ind`,
break-free content `rest` and terminator `t`) whose content does not
already begin with the comment marker after whitespace,
`uncomment_line (comment_line line) = line`. -/
theorem c4_uncomment_comment_roundtrip (ind rest t : List Char)
    (hi : ind.all isIndentChar = true) (hb : noBreak rest = true)
    (hrh : ∀ c, rest.head? = some c → isIndentChar c = false)
    (ht : validTerm t = true)
    (hnb : rest.all pyIsSpace = false)
    (hnh : ¬ (rest.dropWhile pyIsSpace).head? = some '#') :
    uncomment_line (comment_line (ind ++ (rest ++ t))) = ind ++ (rest ++ t) := by
  rw [comment_line_genuine ind rest t hi hb hrh ht hnb hnh]
  have hsp : noBreak (' ' :: rest) = true := by
    simp only [noBreak, List.all_cons, Bool.and_eq_true]
    refine ⟨by decide, ?_⟩
    simpa [noBreak] using hb
  have := uncomment_line_genuine ind (' ' :: rest) t hi hsp ht
  simp only [List.cons_append] at this
  rw [show ind ++ '#' :: ' ' :: rest ++ t = ind ++ '#' :: (' ' :: (rest ++ t)) by simp,
    this]
  simp [(by decide : pyIsSpace ' ' = true)]

/-- Witness for C4 at a concrete line. -/
theorem c4_witness :
    uncomment_line (comment_line "  x = 1\n".toList) = "  x = 1\n".toList := by
  have := c4_uncomment_comment_roundtrip "  ".toList "x = 1".toList "\n".toList
    (by decide) (by decide) (by decide) (by decide) (by decide) (by decide)
  simpa using this

/-- **C5 counterexample.**  `uncomment_line` is not idempotent: stripping
one marker from `##x` exposes a second one, and a second application strips
it too.  This refutes the claim for the line `##x`. -/
theorem c5_counterexample :
    uncomment_line (uncomment_line "##x".toList) ≠ uncomment_line "##x".toList := by
  decide

/-- **C5 (amended).**  `comment_line` is idempotent on every line;
`uncomment_line` is idempotent on every single-marked line (one whose
content does not carry a second marker under the first). -/
theorem c5_comment_uncomment_idempotent (l : Line) :
    comment_line (comment_line l) = comment_line l ∧
    (singleMark l = true → uncomment_line (uncomment_line l) = uncomment_line l) := by
  refine ⟨comment_line_idem l, fun h => ?_⟩
  simp only [singleMark, Bool.not_eq_true'] at h
  exact uncomment_line_unmarked h

/-- Witness for the amended C5 at a concrete line. -/
theorem c5_witness :
    singleMark "# x\n".toList = true ∧
    uncomment_line (uncomment_line "# x\n".toList) = uncomment_line "# x\n".toList := by
  exact ⟨by decide, (c5_comment_uncomment_idempotent "# x\n".toList).2 (by decide)⟩

/-- **C6 counterexample.**  `uncomment_line` does not always preserve the
terminator: on the line `"#\n"` the regex's `\s?` consumes the newline and
the result is the empty string. -/
theorem c6_counterexample :
    uncomment_line ['#', '\n'] = [] ∧
    termOf (uncomment_line ['#', '\n']) ≠ termOf ['#', '\n'] := by
  decide


/-- `comment_line` leaves a decomposed line whose content already starts
(after whitespace) with the marker untouched. -/
theorem comment_line_marked (ind rest t : List Char)
    (hi : ind.all isIndentChar = true) (hb : noBreak rest = true)
    (hrh : ∀ c, rest.head? = some c → isIndentChar c = false)
    (ht : validTerm t = true)
    (hm : (rest.dropWhile pyIsSpace).head? = some '#') :
    comment_line (ind ++ (rest ++ t)) = ind ++ (rest ++ t) := by
  have hne : rest.dropWhile pyIsSpace ≠ [] := by
    intro hcon; rw [hcon] at hm; exact Option.noConfusion hm
  have hnb : rest.all pyIsSpace = false := by
    by_contra hcon
    rw [Bool.not_eq_false] at hcon
    have : rest.dropWhile pyIsSpace = [] := by
      rw [List.dropWhile_eq_nil_iff]
      intro c hc
      exact List.all_eq_true.mp hcon c hc
    exact hne this
  have hdec := takeWhile_append_of_all hi (head_not_indent_restt hrh ht)
  have hblank : isBlank (ind ++ (rest ++ t)) = false := by
    simp only [isBlank, List.all_append, Bool.and_eq_false_iff]
    right; left; exact hnb
  have hdw : (rest ++ t).dropWhile pyIsSpace = rest.dropWhile pyIsSpace ++ t := by
    rw [List.dropWhile_append]
    simp [hne]
  unfold comment_line
  rw [hblank]
  simp only [Bool.false_eq_true, if_false]
  rw [hdec.1, hdec.2, matchTail_line rest t hb ht]
  by_cases hcase : t = ['\n'] ∨ t = ['\r', '\n']
  · rw [if_pos hcase]
    simp [hm]
  · rw [if_neg hcase]
    simp [hm, hdw, List.head?_append_of_ne_nil _ hne]

/-- **C6 (amended).**  On decomposed lines, `comment_line` preserves the
terminator verbatim, and `uncomment_line` preserves it for every line that
is not just indentation plus a bare marker in front of the terminator. -/
theorem c6_terminator_preserved (ind rest t : List Char)
    (hi : ind.all isIndentChar = true) (hb : noBreak rest = true)
    (hrh : ∀ c, rest.head? = some c → isIndentChar c = false)
    (ht : validTerm t = true) :
    termOf (comment_line (ind ++ (rest ++ t))) = termOf (ind ++ (rest ++ t)) ∧
    (bareHash (ind ++ (rest ++ t)) = false →
      termOf (uncomment_line (ind ++ (rest ++ t))) = termOf (ind ++ (rest ++ t))) := by
  have hni : noBreak ind = true := noBreak_of_indent hi
  have htl : termOf (ind ++ (rest ++ t)) = t := by
    rw [← List.append_assoc]
    exact termOf_append _ _ (by rw [noBreak_append, hni, hb]; rfl) ht
  have hdec := takeWhile_append_of_all hi (head_not_indent_restt hrh ht)
  constructor
  · by_cases hnb : rest.all pyIsSpace = true
    · have : isBlank (ind ++ (rest ++ t)) = true := by
        simp only [isBlank, List.all_append]
        rw [hnb]
        have h1 : ind.all pyIsSpace = true := by
          rw [List.all_eq_true] at hi ⊢
          exact fun c hc => pyIsSpace_of_indent (hi c hc)
        have h2 : t.all pyIsSpace = true := by
          rcases validTerm_cases ht with rfl | rfl | ⟨c, rfl, hc⟩
          · rfl
          · decide
          · simp [pyIsSpace_of_break hc]
        rw [h1, h2]; rfl
      rw [comment_line_blank this]
    · by_cases hm : (rest.dropWhile pyIsSpace).head? = some '#'
      · rw [comment_line_marked ind rest t hi hb hrh ht hm]
      · have hnb' : rest.all pyIsSpace = false := by simpa using hnb
        rw [comment_line_genuine ind rest t hi hb hrh ht hnb' hm, htl]
        have : noBreak (ind ++ ('#' :: ' ' :: rest)) = true := by
          rw [noBreak_append, hni]
          simp only [noBreak, List.all_cons] at hb ⊢
          rw [hb]; rfl
        calc termOf (ind ++ '#' :: ' ' :: rest ++ t)
            = termOf ((ind ++ ('#' :: ' ' :: rest)) ++ t) := by
              rw [List.append_assoc, List.cons_append, List.cons_append]
          _ = t := termOf_append _ _ this ht
  · intro hbare
    by_cases hm : marked (ind ++ (rest ++ t)) = true
    · simp only [marked, decide_eq_true_eq, hdec.2] at hm
      cases rest with
      | nil =>
        exfalso
        rcases validTerm_cases ht with rfl | rfl | ⟨c, rfl, hc⟩
        · simp at hm
        · simp at hm
        · simp only [List.nil_append, List.head?_cons, Option.some.injEq] at hm
          subst hm
          exact absurd hc (by decide)
      | cons a w =>
        have hm' : a = '#' := by simpa using hm
        subst hm'
        have hw : noBreak w = true := by
          simp only [noBreak, List.all_cons, Bool.and_eq_true] at hb
          exact hb.2
        cases w with
        | nil =>
          exfalso
          have : bareHash (ind ++ ('#' :: [] ++ t)) = true := by
            unfold bareHash
            rw [hdec.2]
            simpa using ht
          rw [this] at hbare
          exact Bool.true_eq_false ▸ hbare
        | cons b w' =>
          have hres := uncomment_line_genuine ind (b :: w') t hi hw ht
          simp only [List.cons_append] at hres htl ⊢
          rw [htl, hres]
          have hw' : noBreak w' = true := by
            simp only [noBreak, List.all_cons, Bool.and_eq_true] at hw
            exact hw.2
          by_cases hsp : pyIsSpace b = true
          · rw [if_pos hsp]
            rw [show ind ++ w' ++ t = (ind ++ w') ++ t from rfl]
            exact termOf_append _ _ (by rw [noBreak_append, hni, hw']; rfl) ht
          · rw [if_neg hsp]
            rw [show ind ++ (b :: (w' ++ t)) = (ind ++ (b :: w')) ++ t by simp]
            refine termOf_append _ _ ?_ ht
            rw [noBreak_append, hni]
            simpa using hw
    · have hm' : marked (ind ++ (rest ++ t)) = false := by simpa using hm
      rw [uncomment_line_unmarked hm']


/-- Witness for the amended C6 at a concrete line. -/
theorem c6_witness :
    termOf (comment_line ("  ".toList ++ ("foo".toList ++ "\r\n".toList))) =
      termOf ("  ".toList ++ ("foo".toList ++ "\r\n".toList)) ∧
    termOf (uncomment_line ("  ".toList ++ ("foo".toList ++ "\r\n".toList))) =
      termOf ("  ".toList ++ ("foo".toList ++ "\r\n".toList)) := by
  have h := c6_terminator_preserved "  ".toList "foo".toList "\r\n".toList
    (by decide) (by decide) (by decide) (by decide)
  exact ⟨h.1, h.2 (by decide)⟩

/-!
## Claims C1 and C7: the depth-scanning region locator
-/

/-- `started` after scanning lines `startIdx .. startIdx+k` (any `'('`
seen), relative form over the dropped list. -/
def segStarted (ls : List Line) (k : Nat) : Bool :=
  (ls.take (k + 1)).any hasOpen

/-- Depth after scanning lines `startIdx .. startIdx+k`, relative form. -/
def segDelta (ls : List Line) (k : Nat) : Int :=
  ((ls.take (k + 1)).map lineDelta).sum

/-- The `find_cfg_block_end` scan halts right after absolute line `j`
(when scanning from `startIdx`): a `'('` has been seen and the depth
counter is `≤ 0` after processing all characters of lines
`startIdx .. j`. -/
def scanStopsAt (lines : List Line) (startIdx j : Nat) : Prop :=
  segStarted (lines.drop startIdx) (j - startIdx) = true ∧
  segDelta (lines.drop startIdx) (j - startIdx) ≤ 0

instance (lines : List Line) (startIdx j : Nat) :
    Decidable (scanStopsAt lines startIdx j) := by
  unfold scanStopsAt; infer_instance

theorem segStarted_succ (l : Line) (rest : List Line) (m : Nat) :
    segStarted (l :: rest) (m + 1) = (hasOpen l || segStarted rest m) := by
  simp [segStarted, List.take_succ_cons]

theorem segDelta_succ (l : Line) (rest : List Line) (m : Nat) :
    segDelta (l :: rest) (m + 1) = lineDelta l + segDelta rest m := by
  simp [segDelta, List.take_succ_cons]

theorem segStarted_zero (l : Line) (rest : List Line) :
    segStarted (l :: rest) 0 = hasOpen l := by
  simp [segStarted]

theorem segDelta_zero (l : Line) (rest : List Line) :
    segDelta (l :: rest) 0 = lineDelta l := by
  simp [segDelta]

/-- Full functional specification of the worker `cfgEndGo` when a stopping
index exists: it returns the least one. -/
theorem cfgEndGo_spec (ls : List Line) :
    ∀ (k0 : Nat) (d : Int) (st : Bool),
    (∃ m, m < ls.length ∧ (st || segStarted ls m) = true ∧ d + segDelta ls m ≤ 0) →
    ∃ m, cfgEndGo ls k0 d st = k0 + m ∧ m < ls.length ∧
      ((st || segStarted ls m) = true ∧ d + segDelta ls m ≤ 0) ∧
      ∀ m' < m, ¬ ((st || segStarted ls m') = true ∧ d + segDelta ls m' ≤ 0) := by
  induction ls with
  | nil =>
    intro k0 d st h
    obtain ⟨m, hm, _⟩ := h
    exact absurd hm (by simp)
  | cons l rest ih =>
    intro k0 d st h
    by_cases hcond : ((st || hasOpen l) = true ∧ d + lineDelta l ≤ 0)
    · refine ⟨0, ?_, by simp, ?_, by omega⟩
      · rw [cfgEndGo]
        rw [if_pos hcond]
        omega
      · rw [segStarted_zero, segDelta_zero]
        exact hcond
    · have hstep : cfgEndGo (l :: rest) k0 d st =
          cfgEndGo rest (k0 + 1) (d + lineDelta l) (st || hasOpen l) := by
        rw [cfgEndGo]
        rw [if_neg hcond]
      obtain ⟨m, hm, hP⟩ := h
      have hm1 : ∃ m₁, m = m₁ + 1 := by
        cases m with
        | zero =>
          exfalso
          rw [segStarted_zero, segDelta_zero] at hP
          exact hcond hP
        | succ m₁ => exact ⟨m₁, rfl⟩
      obtain ⟨m₁, rfl⟩ := hm1
      have hshift : ∀ m', ((st || segStarted (l :: rest) (m' + 1)) =
            ((st || hasOpen l) || segStarted rest m')) ∧
          (d + segDelta (l :: rest) (m' + 1) = (d + lineDelta l) + segDelta rest m') := by
        intro m'
        constructor
        · rw [segStarted_succ, Bool.or_assoc]
        · rw [segDelta_succ]; ring
      obtain ⟨m', heq, hlt, hP', hmin⟩ := ih (k0 + 1) (d + lineDelta l) (st || hasOpen l)
        ⟨m₁, by simpa using hm, by
          rw [← (hshift m₁).1, ← (hshift m₁).2]; exact hP⟩
      refine ⟨m' + 1, ?_, by simpa using hlt, ?_, ?_⟩
      · rw [hstep, heq]; omega
      · rw [(hshift m').1, (hshift m').2]; exact hP'
      · intro m'' hm''
        cases m'' with
        | zero =>
          rw [segStarted_zero, segDelta_zero]
          exact hcond
        | succ m₂ =>
          rw [(hshift m₂).1, (hshift m₂).2]
          exact hmin m₂ (by omega)

/-- **C7.**  When the delimiters balance before end of file, the region
locator returns the first line index at or after `startIdx` at which
`started ∧ depth ≤ 0` holds, and no earlier index satisfies the
condition. -/
theorem c7_find_cfg_block_end_first_stop (lines : List Line) (startIdx : Nat)
    (h : ∃ j, startIdx ≤ j ∧ j < lines.length ∧ scanStopsAt lines startIdx j) :
    startIdx ≤ find_cfg_block_end lines startIdx ∧
    find_cfg_block_end lines startIdx < lines.length ∧
    scanStopsAt lines startIdx (find_cfg_block_end lines startIdx) ∧
    ∀ j, startIdx ≤ j → j < find_cfg_block_end lines startIdx →
      ¬ scanStopsAt lines startIdx j := by
  obtain ⟨j, hsj, hjl, hstop⟩ := h
  have hlt : startIdx < lines.length := by omega
  have hdl : (lines.drop startIdx).length = lines.length - startIdx :=
    List.length_drop ..
  have hex : ∃ m, m < (lines.drop startIdx).length ∧
      ((false || segStarted (lines.drop startIdx) m) = true ∧
        (0 : Int) + segDelta (lines.drop startIdx) m ≤ 0) := by
    refine ⟨j - startIdx, by omega, ?_, ?_⟩
    · simpa using hstop.1
    · simpa using hstop.2
  obtain ⟨m, heq, hml, hP, hmin⟩ := cfgEndGo_spec (lines.drop startIdx) 0 0 false hex
  have hfind : find_cfg_block_end lines startIdx = startIdx + m := by
    rw [find_cfg_block_end, if_pos hlt, heq]
    omega
  rw [hfind]
  refine ⟨by omega, by omega, ?_, ?_⟩
  · unfold scanStopsAt
    rw [show startIdx + m - startIdx = m by omega]
    refine ⟨by simpa using hP.1, ?_⟩
    have := hP.2
    omega
  · intro j' hsj' hj' hcon
    unfold scanStopsAt at hcon
    exact hmin (j' - startIdx) (by omega)
      ⟨by simpa using hcon.1, by simpa using hcon.2⟩


/-- Witness for C7 at a concrete two-line document. -/
theorem c7_witness :
    0 ≤ find_cfg_block_end
        ["A_CFG = UnitreeArticulationCfg(\n".toList, ")\n".toList] 0 ∧
    find_cfg_block_end
        ["A_CFG = UnitreeArticulationCfg(\n".toList, ")\n".toList] 0 <
      ["A_CFG = UnitreeArticulationCfg(\n".toList, ")\n".toList].length ∧
    scanStopsAt ["A_CFG = UnitreeArticulationCfg(\n".toList, ")\n".toList] 0
      (find_cfg_block_end ["A_CFG = UnitreeArticulationCfg(\n".toList, ")\n".toList] 0) ∧
    ∀ j, 0 ≤ j →
      j < find_cfg_block_end ["A_CFG = UnitreeArticulationCfg(\n".toList, ")\n".toList] 0 →
      ¬ scanStopsAt ["A_CFG = UnitreeArticulationCfg(\n".toList, ")\n".toList] 0 j :=
  c7_find_cfg_block_end_first_stop
    ["A_CFG = UnitreeArticulationCfg(\n".toList, ")\n".toList] 0
    ⟨1, by omega, by decide, by decide⟩

/-- The worker returns the last relative index when no stopping index
exists (the Python `return len(lines) - 1`). -/
theorem cfgEndGo_no_stop (ls : List Line) :
    ∀ (k0 : Nat) (d : Int) (st : Bool),
    (∀ m, m < ls.length → ¬ ((st || segStarted ls m) = true ∧ d + segDelta ls m ≤ 0)) →
    cfgEndGo ls k0 d st = k0 + ls.length - 1 := by
  induction ls with
  | nil => intro k0 d st _; simp [cfgEndGo]
  | cons l rest ih =>
    intro k0 d st h
    have h0 := h 0 (by simp)
    rw [segStarted_zero, segDelta_zero] at h0
    rw [cfgEndGo, if_neg h0]
    have := ih (k0 + 1) (d + lineDelta l) (st || hasOpen l) (by
      intro m hm
      have := h (m + 1) (by simpa using hm)
      rw [segStarted_succ, segDelta_succ] at this
      intro hcon
      rw [Bool.or_assoc] at hcon
      exact this ⟨hcon.1, by have := hcon.2; omega⟩)
    rw [this]
    simp only [List.length_cons]
    omega

/-- **C1 (amended).**  When an enclosing region's opening delimiters never
balance back to zero before end of file, `find_cfg_block_end` raises no
error: it returns the last line index, and the patch run proceeds (and may
rewrite the file).  There is no `MalformedRegionError` in the program. -/
theorem c1_unbalanced_region_returns_last (lines : List Line) (startIdx : Nat)
    (hlt : startIdx < lines.length)
    (h : ∀ j, startIdx ≤ j → j < lines.length → ¬ scanStopsAt lines startIdx j) :
    find_cfg_block_end lines startIdx = lines.length - 1 := by
  have hdl : (lines.drop startIdx).length = lines.length - startIdx :=
    List.length_drop ..
  have hrel : ∀ m, m < (lines.drop startIdx).length →
      ¬ ((false || segStarted (lines.drop startIdx) m) = true ∧
        (0 : Int) + segDelta (lines.drop startIdx) m ≤ 0) := by
    intro m hm hcon
    refine h (startIdx + m) (by omega) (by omega) ?_
    unfold scanStopsAt
    rw [show startIdx + m - startIdx = m by omega]
    exact ⟨by simpa using hcon.1, by have := hcon.2; omega⟩
  rw [find_cfg_block_end, if_pos hlt, cfgEndGo_no_stop _ 0 0 false hrel]
  omega

/-- Witness for the amended C1: a document whose single region never
balances; the locator returns the last line index. -/
theorem c1_witness :
    find_cfg_block_end
        (splitlinesTrue
          "A_CFG = UnitreeArticulationCfg(\n# spawn=UnitreeUrdfFileCfg(\n# ),\n".toList) 0 =
      (splitlinesTrue
        "A_CFG = UnitreeArticulationCfg(\n# spawn=UnitreeUrdfFileCfg(\n# ),\n".toList).length - 1 := by
  refine c1_unbalanced_region_returns_last _ 0 (by decide) ?_
  intro j h1 h2
  have h3 : (splitlinesTrue
      "A_CFG = UnitreeArticulationCfg(\n# spawn=UnitreeUrdfFileCfg(\n# ),\n".toList).length = 3 := by
    decide
  rw [h3] at h2
  interval_cases j <;> decide

/-- **C1 counterexample.**  The claim asserts that an unbalanced region
makes the run fail with `MalformedRegionError`, leaving the file
byte-identical.  In the program no such error exists: on this document the
first line is a region start, no index ever satisfies the stop condition,
and yet the patch produces a different document (a write occurs). -/
theorem c1_counterexample :
    cfgStartAt (((splitlinesTrue
        "A_CFG = UnitreeArticulationCfg(\n# spawn=UnitreeUrdfFileCfg(\n# ),\n".toList).get? 0).getD []) = true ∧
    (∀ j, j < (splitlinesTrue
        "A_CFG = UnitreeArticulationCfg(\n# spawn=UnitreeUrdfFileCfg(\n# ),\n".toList).length →
      ¬ scanStopsAt (splitlinesTrue
        "A_CFG = UnitreeArticulationCfg(\n# spawn=UnitreeUrdfFileCfg(\n# ),\n".toList) 0 j) ∧
    (patch_spawn_modes
        "A_CFG = UnitreeArticulationCfg(\n# spawn=UnitreeUrdfFileCfg(\n# ),\n".toList
        SpawnKind.urdf).1 ≠
      "A_CFG = UnitreeArticulationCfg(\n# spawn=UnitreeUrdfFileCfg(\n# ),\n".toList := by
  refine ⟨by decide, ?_, by decide⟩
  intro j hj
  have h3 : (splitlinesTrue
      "A_CFG = UnitreeArticulationCfg(\n# spawn=UnitreeUrdfFileCfg(\n# ),\n".toList).length = 3 := by
    decide
  rw [h3] at hj
  interval_cases j <;> decide


/-!
## Claims C9 and C10: the directive rewriter
-/

theorem litThen_self (lit X : List Char) : litThen lit (lit ++ X) = some X := by
  simp [litThen, List.isPrefixOf_iff_prefix.mpr (List.prefix_append ..), List.drop_left]

theorem ros_not_prefix_model (X : List Char) :
    litThen DirName.rosDir.chars (DirName.modelDir.chars ++ X) = none := by
  simp [litThen, DirName.chars, List.isPrefixOf]

theorem matchDirName_self (name : DirName) (X : List Char) :
    matchDirName (name.chars ++ X) = some (name, X) := by
  cases name with
  | rosDir => rw [matchDirName, litThen_self]
  | modelDir => rw [matchDirName, ros_not_prefix_model, litThen_self]; rfl

theorem dropWhile_ws_append {ws r : List Char} (hw : ws.all pyIsSpace = true)
    {c : Char} (hc : pyIsSpace c = false) :
    (ws ++ c :: r).dropWhile pyIsSpace = c :: r := by
  induction ws with
  | nil => simp [List.dropWhile_cons, hc]
  | cons a ws ih =>
    simp only [List.all_cons, Bool.and_eq_true] at hw
    simp [List.dropWhile_cons, hw.1, ih hw.2]

/-- The tail pattern accepts `[ \t]*` whitespace plus an optional
newline-free `#`-comment, capturing everything. -/
theorem dirTail_spec (tws cmt : List Char) (htws : tws.all isIndentChar = true)
    (hcmt : cmt = [] ∨ ∃ cb, cmt = '#' :: cb ∧ ∀ c ∈ cb, c ≠ '\n') :
    dirTail (tws ++ cmt) = some (tws ++ cmt) := by
  rcases hcmt with rfl | ⟨cb, rfl, hcb⟩
  · have hdec := takeWhile_append_of_all (x := ([] : List Char)) htws
      (by intro c hc; simp at hc)
    unfold dirTail
    rw [List.append_nil] at hdec ⊢
    rw [hdec.1, hdec.2]
  · have hdec := takeWhile_append_of_all (x := '#' :: cb) htws
      (by intro c hc; simp only [List.head?_cons, Option.some.injEq] at hc
          subst hc; rfl)
    unfold dirTail
    rw [hdec.1, hdec.2]
    have h1 : cb.takeWhile (fun c => c ≠ '\n') = cb :=
      List.takeWhile_eq_self_iff.mpr (by
        intro c hc
        simpa using hcb c hc)
    have h2 : cb.dropWhile (fun c => c ≠ '\n') = [] :=
      List.dropWhile_eq_nil_iff.mpr (by
        intro c hc
        simpa using hcb c hc)
    simp [h1, h2]
    exact ⟨Or.inl hcb, hcb⟩

/-- `findVal` closes at the first quote whose remainder carries a valid
tail. -/
theorem findVal_spec (q : Char) (val tl : List Char)
    (hval : ∀ c ∈ val, c ≠ q ∧ c ≠ '\n')
    (htl : dirTail tl = some tl) :
    findVal q (val ++ q :: tl) = some (val, tl) := by
  induction val with
  | nil =>
    rw [List.nil_append, findVal, if_pos rfl, htl]
  | cons c val ih =>
    have hc := hval c (by simp)
    rw [List.cons_append, findVal, if_neg hc.1, if_neg hc.2,
      ih (fun d hd => hval d (by simp [hd]))]
    rfl

/-- No quote (and no blocking newline) in the remainder: no match. -/
theorem findVal_none_of (q : Char) (xs : List Char)
    (h : ∀ c ∈ xs, c ≠ q ∧ c ≠ '\n') : findVal q xs = none := by
  induction xs with
  | nil => rfl
  | cons c xs ih =>
    have hc := h c (by simp)
    rw [findVal, if_neg hc.1, if_neg hc.2, ih (fun d hd => h d (by simp [hd]))]
    rfl

/-- Parse of everything before the value: `matchDirAssign` on
`indent name ws₁ = ws₂ q R` reduces to `findVal` on `R`. -/
theorem matchDirAssign_front (ind ws1 ws2 R : List Char) (name : DirName) (q : Char)
    (hi : ind.all isIndentChar = true)
    (hw1 : ws1.all pyIsSpace = true) (hw2 : ws2.all pyIsSpace = true)
    (hq : q = '"' ∨ q = singleQuote) :
    matchDirAssign (ind ++ (name.chars ++ ws1 ++ '=' :: ws2 ++ q :: R))
      = (findVal q R).map (fun p => (ind, name, p.1, p.2)) := by
  have hhead : ∀ c, (name.chars ++ ws1 ++ '=' :: ws2 ++ q :: R).head? = some c →
      isIndentChar c = false := by
    intro c hc
    cases name <;>
      (simp only [DirName.chars, List.cons_append, List.head?_cons,
        Option.some.injEq] at hc
       subst hc
       rfl)
  have hdec := takeWhile_append_of_all hi hhead
  have hqws : pyIsSpace q = false := by
    rcases hq with rfl | rfl <;> decide
  unfold matchDirAssign
  rw [hdec.1, hdec.2]
  rw [show name.chars ++ ws1 ++ '=' :: ws2 ++ q :: R
      = name.chars ++ (ws1 ++ '=' :: (ws2 ++ q :: R)) by simp]
  rw [matchDirName_self]
  have h1 : (ws1 ++ '=' :: (ws2 ++ q :: R)).dropWhile pyIsSpace
      = '=' :: (ws2 ++ q :: R) := dropWhile_ws_append hw1 (by decide)
  have h2 : (ws2 ++ q :: R).dropWhile pyIsSpace = q :: R :=
    dropWhile_ws_append hw2 hqws
  simp [h1, h2, hq]

/-- **C9.**  A directive line `NAME = "old"` (with optional whitespace and
an optional inline `#`-comment as tail) patched with a new value for `NAME`
is rewritten to `NAME = "new"` with the original indentation and tail kept
verbatim; any line on which the pattern does not match, or whose name has
no supplied value, is left untouched. -/
theorem c9_directive_rewrite (values : DirValues) (ln : Line)
    (ind ws1 ws2 val tws cmt v : List Char) (name : DirName) (q : Char)
    (hcore : rstripNl ln =
      ind ++ (name.chars ++ ws1 ++ '=' :: ws2 ++ q :: (val ++ q :: (tws ++ cmt))))
    (hi : ind.all isIndentChar = true)
    (hw1 : ws1.all pyIsSpace = true) (hw2 : ws2.all pyIsSpace = true)
    (hq : q = '"' ∨ q = singleQuote)
    (hval : ∀ c ∈ val, c ≠ q ∧ c ≠ '\n')
    (htws : tws.all isIndentChar = true)
    (hcmt : cmt = [] ∨ ∃ cb, cmt = '#' :: cb ∧ ∀ c ∈ cb, c ≠ '\n')
    (hv : values.lookup name = some v) :
    replaceDirLine values ln =
      ind ++ name.chars ++ [' ', '=', ' ', '"'] ++ v ++ '"' :: (tws ++ cmt) ++ ['\n'] ∧
    (∀ ln', matchDirAssign (rstripNl ln') = none → replaceDirLine values ln' = ln') ∧
    (∀ ln' ind' name' val' tail',
      matchDirAssign (rstripNl ln') = some (ind', name', val', tail') →
      values.lookup name' = none → replaceDirLine values ln' = ln') := by
  refine ⟨?_, ?_, ?_⟩
  · unfold replaceDirLine
    rw [hcore, matchDirAssign_front ind ws1 ws2 _ name q hi hw1 hw2 hq,
      findVal_spec q val _ hval (dirTail_spec tws cmt htws hcmt)]
    simp only [Option.map_some']
    rw [hv]
  · intro ln' hnone
    unfold replaceDirLine
    rw [hnone]
  · intro ln' ind' name' val' tail' hsome hnone
    unfold replaceDirLine
    rw [hsome]
    simp only [hnone]

/-- Witness for C9 at a concrete directive line with an inline comment. -/
theorem c9_witness :
    replaceDirLine ⟨some "new".toList, none⟩
        "UNITREE_ROS_DIR = \"old\"  # keep\n".toList =
      "UNITREE_ROS_DIR = \"new\"  # keep\n".toList := by
  have h := c9_directive_rewrite ⟨some "new".toList, none⟩
    "UNITREE_ROS_DIR = \"old\"  # keep\n".toList
    [] " ".toList " ".toList "old".toList "  ".toList "# keep".toList "new".toList
    DirName.rosDir '"'
    (by decide) (by decide) (by decide) (by decide) (Or.inl rfl)
    (by decide) (by decide)
    (Or.inr ⟨" keep".toList, by decide, by decide⟩)
    (by rfl)
  rw [h.1]
  decide


/-- **C10 counterexample.**  A `"\r\n"`-terminated directive line *does*
match when it carries an inline comment: the greedy `#.*` absorbs the
residual `'\r'`, and the line is rewritten — refuting the claim that the
residual `'\r'` always defeats the match. -/
theorem c10_counterexample :
    (matchDirAssign (rstripNl "UNITREE_ROS_DIR = \"old\" # c\r\n".toList)).isSome = true ∧
    replaceDirLine ⟨some "new".toList, none⟩
        "UNITREE_ROS_DIR = \"old\" # c\r\n".toList ≠
      "UNITREE_ROS_DIR = \"old\" # c\r\n".toList := by
  decide

/-- A residual `'\r'` with no `#`-comment kills the tail pattern, and the
value scan can never close elsewhere. -/
theorem findVal_cr_none (q : Char) (val tws : List Char)
    (hval : ∀ c ∈ val, c ≠ q ∧ c ≠ '\n')
    (htws : tws.all isIndentChar = true)
    (hq : q = '"' ∨ q = singleQuote) :
    findVal q (val ++ q :: (tws ++ ['\r'])) = none := by
  have hdt : dirTail (tws ++ ['\r']) = none := by
    have hdec := takeWhile_append_of_all (x := ['\r']) htws
      (by intro c hc; simp only [List.head?_cons, Option.some.injEq] at hc
          subst hc; rfl)
    unfold dirTail
    rw [hdec.2]
    rfl
  have hrest : findVal q (tws ++ ['\r']) = none := by
    apply findVal_none_of
    intro c hc
    rw [List.mem_append] at hc
    rcases hc with hc | hc
    · have h := List.all_eq_true.mp htws c hc
      simp only [isIndentChar, Bool.or_eq_true, decide_eq_true_eq] at h
      rcases h with rfl | rfl <;>
        exact ⟨by rcases hq with rfl | rfl <;> decide, by decide⟩
    · simp only [List.mem_singleton] at hc
      subst hc
      exact ⟨by rcases hq with rfl | rfl <;> decide, by decide⟩
  induction val with
  | nil => simp [findVal, hdt, hrest]
  | cons c val ih =>
    have hc := hval c (by simp)
    rw [List.cons_append, findVal, if_neg hc.1, if_neg hc.2,
      ih (fun d hd => hval d (by simp [hd]))]
    rfl

/-- **C10 (amended).**  Every rewritten directive line is emitted with
exactly one trailing `'\n'` (in particular a final directive line without a
terminator gains one); a `"\r\n"`-terminated directive line *without* an
inline comment never matches — the residual `'\r'` defeats the tail — and
is left unchanged.  (With an inline comment the `(#.*)` group absorbs the
`'\r'` and the line *is* rewritten: see the counterexample.) -/
theorem c10_directive_newline (values : DirValues) (ln ln2 : Line)
    (ind ws1 ws2 val tws cmt v ind2 ws12 ws22 val2 tws2 : List Char)
    (name name2 : DirName) (q q2 : Char)
    (hcore : rstripNl ln =
      ind ++ (name.chars ++ ws1 ++ '=' :: ws2 ++ q :: (val ++ q :: (tws ++ cmt))))
    (hi : ind.all isIndentChar = true)
    (hw1 : ws1.all pyIsSpace = true) (hw2 : ws2.all pyIsSpace = true)
    (hq : q = '"' ∨ q = singleQuote)
    (hval : ∀ c ∈ val, c ≠ q ∧ c ≠ '\n')
    (htws : tws.all isIndentChar = true)
    (hcmt : cmt = [] ∨ ∃ cb, cmt = '#' :: cb ∧ ∀ c ∈ cb, c ≠ '\n')
    (hv : values.lookup name = some v) (hvnl : ∀ c ∈ v, c ≠ '\n')
    (hcore2 : rstripNl ln2 =
      ind2 ++ (name2.chars ++ ws12 ++ '=' :: ws22 ++ q2 :: (val2 ++ q2 :: (tws2 ++ ['\r']))))
    (hi2 : ind2.all isIndentChar = true)
    (hw12 : ws12.all pyIsSpace = true) (hw22 : ws22.all pyIsSpace = true)
    (hq2 : q2 = '"' ∨ q2 = singleQuote)
    (hval2 : ∀ c ∈ val2, c ≠ q2 ∧ c ≠ '\n')
    (htws2 : tws2.all isIndentChar = true) :
    (replaceDirLine values ln =
        (ind ++ name.chars ++ [' ', '=', ' ', '"'] ++ v ++ '"' :: (tws ++ cmt)) ++ ['\n'] ∧
      '\n' ∉ ind ++ name.chars ++ [' ', '=', ' ', '"'] ++ v ++ '"' :: (tws ++ cmt)) ∧
    replaceDirLine values ln2 = ln2 := by
  refine ⟨⟨?_, ?_⟩, ?_⟩
  · unfold replaceDirLine
    rw [hcore, matchDirAssign_front ind ws1 ws2 _ name q hi hw1 hw2 hq,
      findVal_spec q val _ hval (dirTail_spec tws cmt htws hcmt)]
    simp only [Option.map_some']
    rw [hv]
    try simp
  · intro hcon
    have hni : ('\n' : Char) ∉ ind := fun h => by
      have := List.all_eq_true.mp hi _ h
      simp [isIndentChar] at this
    have hnn : ('\n' : Char) ∉ name.chars := by cases name <;> decide
    have hnv : ('\n' : Char) ∉ v := fun h => (hvnl _ h) rfl
    have hnt : ('\n' : Char) ∉ tws := fun h => by
      have := List.all_eq_true.mp htws _ h
      simp [isIndentChar] at this
    have hnc : ('\n' : Char) ∉ cmt := by
      rcases hcmt with rfl | ⟨cb, rfl, hcb⟩
      · simp
      · intro h
        rcases List.mem_cons.mp h with h | h
        · exact absurd h (by decide)
        · exact (hcb _ h) rfl
    simp [List.mem_append, List.mem_cons, hni, hnn, hnv, hnt, hnc] at hcon
  · unfold replaceDirLine
    rw [hcore2, matchDirAssign_front ind2 ws12 ws22 _ name2 q2 hi2 hw12 hw22 hq2,
      findVal_cr_none q2 val2 tws2 hval2 htws2 hq2]
    rfl

/-- Witness for the amended C10: an unterminated final directive line gains
exactly one newline; a `"\r\n"`-terminated directive with no comment is
untouched. -/
theorem c10_witness :
    (replaceDirLine ⟨none, some "m".toList⟩ "UNITREE_MODEL_DIR = \"a\"".toList =
        ([] ++ DirName.modelDir.chars ++ [' ', '=', ' ', '"'] ++ "m".toList ++
          '"' :: ([] ++ [])) ++ ['\n'] ∧
      '\n' ∉ [] ++ DirName.modelDir.chars ++ [' ', '=', ' ', '"'] ++ "m".toList ++
        '"' :: ([] ++ [])) ∧
    replaceDirLine ⟨none, some "m".toList⟩ "UNITREE_MODEL_DIR = \"a\"\r\n".toList =
      "UNITREE_MODEL_DIR = \"a\"\r\n".toList :=
  c10_directive_newline ⟨none, some "m".toList⟩
    "UNITREE_MODEL_DIR = \"a\"".toList "UNITREE_MODEL_DIR = \"a\"\r\n".toList
    [] " ".toList " ".toList "a".toList [] [] "m".toList
    [] " ".toList " ".toList "a".toList []
    DirName.modelDir DirName.modelDir '"' '"'
    (by decide) (by decide) (by decide) (by decide) (Or.inl rfl) (by decide)
    (by decide) (Or.inl rfl) (by rfl) (by decide)
    (by decide) (by decide) (by decide) (by decide) (Or.inl rfl) (by decide)
    (by decide)


/-!
## Claim C8: the sub-block finder
-/

/-- The line stored at index `i` (`[]` past the end; all in-range uses are
guarded). -/
def lineAt (lines : List Line) (i : Nat) : Line := (lines.get? i).getD []

/-- `firstFooterIdx` returns the least relative index of a footer line. -/
theorem firstFooterIdx_spec (ls : List Line) :
    ∀ o, firstFooterIdx ls = some o →
      o < ls.length ∧ footerAt (lineAt ls o) = true ∧
      ∀ o' < o, footerAt (lineAt ls o') = false := by
  induction ls with
  | nil => intro o h; simp [firstFooterIdx] at h
  | cons l t ih =>
    intro o h
    rw [firstFooterIdx] at h
    by_cases hf : footerAt l = true
    · rw [if_pos hf] at h
      injection h with h
      subst h
      exact ⟨by simp, by simpa [lineAt] using hf, fun o' ho' => absurd ho' (by omega)⟩
    · rw [if_neg hf] at h
      cases ho : firstFooterIdx t with
      | none => rw [ho] at h; simp at h
      | some o₁ =>
        rw [ho] at h
        simp only [Option.map_some', Option.some.injEq] at h
        subst h
        obtain ⟨h1, h2, h3⟩ := ih o₁ ho
        refine ⟨by simpa using h1, by simpa [lineAt] using h2, ?_⟩
        intro o' ho'
        cases o' with
        | zero => simpa [lineAt] using hf
        | succ o₂ =>
          have := h3 o₂ (by omega)
          simpa [lineAt] using this

/-- When no footer exists, `firstFooterIdx` finds none. -/
theorem firstFooterIdx_none (ls : List Line) :
    firstFooterIdx ls = none → ∀ o < ls.length, footerAt (lineAt ls o) = false := by
  induction ls with
  | nil => intro _ o h; simp at h
  | cons l t ih =>
    intro h o ho
    rw [firstFooterIdx] at h
    by_cases hf : footerAt l = true
    · rw [if_pos hf] at h; exact absurd h (by simp)
    · rw [if_neg hf] at h
      cases o with
      | zero => simpa [lineAt] using hf
      | succ o₁ =>
        cases ho' : firstFooterIdx t with
        | none =>
          have := ih ho' o₁ (by simpa using ho)
          simpa [lineAt] using this
        | some _ => rw [ho'] at h; simp at h

theorem lineAt_drop (lines : List Line) (n o : Nat) :
    lineAt (lines.drop n) o = lineAt lines (n + o) := by
  simp [lineAt, List.getElem?_drop]

/-- A correctly located sub-block span inside the region `[s, e]`:
the header carries the kind, the footer is the first footer line strictly
after the header, and the whole span lies inside the region. -/
def spanOK (lines : List Line) (s e : Nat) (k : SpawnKind) (sp : Nat × Nat) : Prop :=
  s ≤ sp.1 ∧ sp.1 < sp.2 ∧ sp.2 ≤ e ∧
  headerOf (lineAt lines sp.1) = some k ∧
  footerAt (lineAt lines sp.2) = true ∧
  ∀ j, sp.1 < j → j < sp.2 → footerAt (lineAt lines j) = false

/-- Invariant-carrying specification of the `locate_spawn_blocks_within`
loop. -/
theorem locateGo_spec (lines : List Line) (s e : Nat) :
    ∀ (fuel : Nat), ∀ i u d, s ≤ i → e + 1 ≤ i + fuel →
    (∀ sp, u = some sp → spanOK lines s e SpawnKind.urdf sp ∧ sp.2 < i) →
    (∀ sp, d = some sp → spanOK lines s e SpawnKind.usd sp ∧ sp.2 < i) →
    (∀ sp sq, u = some sp → d = some sq → sp.2 < sq.1 ∨ sq.2 < sp.1) →
    (∀ sp, (locateGo lines e fuel i u d).1 = some sp →
      spanOK lines s e SpawnKind.urdf sp) ∧
    (∀ sp, (locateGo lines e fuel i u d).2 = some sp →
      spanOK lines s e SpawnKind.usd sp) ∧
    (∀ sp sq, (locateGo lines e fuel i u d).1 = some sp →
      (locateGo lines e fuel i u d).2 = some sq → sp.2 < sq.1 ∨ sq.2 < sp.1) := by
  intro fuel
  induction fuel with
  | zero =>
    intro i u d hsi hfuel hu hd hud
    exact ⟨fun sp h => (hu sp h).1, fun sp h => (hd sp h).1, hud⟩
  | succ fuel ih =>
    intro i u d hsi hfuel hu hd hud
    rw [locateGo]
    by_cases hie : i ≤ e
    · rw [if_pos hie]
      cases hh : headerOf ((lines.get? i).getD []) with
      | none =>
        exact ih (i + 1) u d (by omega) (by omega)
          (fun sp h => ⟨(hu sp h).1, by have := (hu sp h).2; omega⟩)
          (fun sp h => ⟨(hd sp h).1, by have := (hd sp h).2; omega⟩) hud
      | some kind =>
        cases hfo : firstFooterIdx (lines.drop (i + 1)) with
        | none =>
          exact ih (i + 1) u d (by omega) (by omega)
            (fun sp h => ⟨(hu sp h).1, by have := (hu sp h).2; omega⟩)
            (fun sp h => ⟨(hd sp h).1, by have := (hd sp h).2; omega⟩) hud
        | some o =>
          dsimp only
          by_cases hje : e < i + 1 + o
          · rw [if_pos hje]
            exact ih (i + 1) u d (by omega) (by omega)
              (fun sp h => ⟨(hu sp h).1, by have := (hu sp h).2; omega⟩)
              (fun sp h => ⟨(hd sp h).1, by have := (hd sp h).2; omega⟩) hud
          · rw [if_neg hje]
            obtain ⟨hol, hof, homin⟩ := firstFooterIdx_spec _ o hfo
            rw [lineAt_drop] at hof
            have hnewOK : spanOK lines s e kind (i, i + 1 + o) := by
              refine ⟨hsi, by omega, by omega, ?_, hof, ?_⟩
              · exact hh
              · intro j hj1 hj2
                have : j - (i + 1) < o := by omega
                have hmin := homin (j - (i + 1)) this
                rw [lineAt_drop] at hmin
                rw [show i + 1 + (j - (i + 1)) = j by omega] at hmin
                exact hmin
            cases kind with
            | urdf =>
              dsimp only
              by_cases hun : u = none
              · subst hun
                rw [if_pos rfl]
                exact ih (i + 1 + o + 1) (some (i, i + 1 + o)) d (by omega) (by omega)
                  (fun sp h => by
                    injection h with h
                    subst h
                    exact ⟨hnewOK, by omega⟩)
                  (fun sp h => ⟨(hd sp h).1, by have := (hd sp h).2; omega⟩)
                  (fun sp sq h1 h2 => by
                    injection h1 with h1
                    subst h1
                    have := (hd sq h2).2
                    right; simpa using by omega)
              · rw [if_neg hun]
                exact ih (i + 1 + o + 1) u d (by omega) (by omega)
                  (fun sp h => ⟨(hu sp h).1, by have := (hu sp h).2; omega⟩)
                  (fun sp h => ⟨(hd sp h).1, by have := (hd sp h).2; omega⟩) hud
            | usd =>
              dsimp only
              by_cases hdn : d = none
              · subst hdn
                rw [if_pos rfl]
                exact ih (i + 1 + o + 1) u (some (i, i + 1 + o)) (by omega) (by omega)
                  (fun sp h => ⟨(hu sp h).1, by have := (hu sp h).2; omega⟩)
                  (fun sp h => by
                    injection h with h
                    subst h
                    exact ⟨hnewOK, by omega⟩)
                  (fun sp sq h1 h2 => by
                    injection h2 with h2
                    subst h2
                    have := (hu sp h1).2
                    left; simpa using by omega)
              · rw [if_neg hdn]
                exact ih (i + 1 + o + 1) u d (by omega) (by omega)
                  (fun sp h => ⟨(hu sp h).1, by have := (hu sp h).2; omega⟩)
                  (fun sp h => ⟨(hd sp h).1, by have := (hd sp h).2; omega⟩) hud
    · rw [if_neg hie]
      exact ⟨fun sp h => (hu sp h).1, fun sp h => (hd sp h).1, hud⟩


/-- **C8.**  The sub-block finder returns at most one span per kind (by
construction one `Option` each); every returned span starts at a header of
its kind inside the region and ends at the first footer line strictly
after the header (still inside the region); the two spans never overlap
(scanning resumes after a recorded footer); and a header whose footer is
not found inside the region never starts a returned span (it is skipped
without error). -/
theorem c8_sub_block_finder (lines : List Line) (s e : Nat) :
    (∀ sp, (locate_spawn_blocks_within lines s e).1 = some sp →
      spanOK lines s e SpawnKind.urdf sp) ∧
    (∀ sp, (locate_spawn_blocks_within lines s e).2 = some sp →
      spanOK lines s e SpawnKind.usd sp) ∧
    (∀ sp sq, (locate_spawn_blocks_within lines s e).1 = some sp →
      (locate_spawn_blocks_within lines s e).2 = some sq →
      sp.2 < sq.1 ∨ sq.2 < sp.1) ∧
    (∀ a k, s ≤ a → a ≤ e → headerOf (lineAt lines a) = some k →
      (∀ j, a < j → j ≤ e → footerAt (lineAt lines j) = false) →
      (∀ b, (locate_spawn_blocks_within lines s e).1 ≠ some (a, b)) ∧
      (∀ b, (locate_spawn_blocks_within lines s e).2 ≠ some (a, b))) := by
  have h := locateGo_spec lines s e (e + 1 - s) s none none (le_refl s) (by omega)
    (fun sp h => by simp at h) (fun sp h => by simp at h)
    (fun sp sq h1 _ => by simp at h1)
  refine ⟨h.1, h.2.1, h.2.2, ?_⟩
  intro a k _ _ _ hnf
  constructor
  · intro b hcon
    have hsp := h.1 _ hcon
    have hfooter := hsp.2.2.2.2.1
    rw [hnf b hsp.2.1 hsp.2.2.1] at hfooter
    exact absurd hfooter (by simp)
  · intro b hcon
    have hsp := h.2.1 _ hcon
    have hfooter := hsp.2.2.2.2.1
    rw [hnf b hsp.2.1 hsp.2.2.1] at hfooter
    exact absurd hfooter (by simp)

/-- Witness for C8: on a concrete region holding one commented USD block
and one uncommented URDF block, the located URDF span is exactly the
header/first-footer pair. -/
theorem c8_witness :
    spanOK
      (splitlinesTrue
        ("A_CFG = UnitreeArticulationCfg(\n    spawn=UnitreeUrdfFileCfg(\n        x=1,\n    ),\n    # spawn=UnitreeUsdFileCfg(\n    #     y=2,\n    # ),\n)\n").toList)
      0 7 SpawnKind.urdf (1, 3) := by
  have h := c8_sub_block_finder
    (splitlinesTrue
      ("A_CFG = UnitreeArticulationCfg(\n    spawn=UnitreeUrdfFileCfg(\n        x=1,\n    ),\n    # spawn=UnitreeUsdFileCfg(\n    #     y=2,\n    # ),\n)\n").toList)
    0 7
  exact h.1 (1, 3) (by decide)


/-!
## Claim C2: exclusivity of the whole-file patch

Support: frame and congruence lemmas for the patch loop.
-/

theorem get?_mapIdx {α β : Type} :
    ∀ (l : List α) (f : Nat → α → β) (k : Nat),
      (l.mapIdx f).get? k = (l.get? k).map (f k)
  | [], _, _ => by simp
  | a :: l, f, 0 => by simp [List.mapIdx_cons]
  | a :: l, f, k + 1 => by
    simp only [List.mapIdx_cons, List.get?_cons_succ]
    exact get?_mapIdx l _ k

theorem comment_line_nil : comment_line [] = [] := rfl

theorem uncomment_line_nil : uncomment_line [] = [] := rfl

/-- Pointwise description of `switch_spawn_block`. -/
theorem lineAt_switch (lines : List Line) (sp : Nat × Nat) (en : Bool) (k : Nat) :
    lineAt (switch_spawn_block lines sp en) k =
      if sp.1 ≤ k ∧ k ≤ sp.2 then
        (if en then uncomment_line else comment_line) (lineAt lines k)
      else lineAt lines k := by
  unfold lineAt switch_spawn_block
  rw [get?_mapIdx]
  cases h : lines.get? k with
  | none =>
    simp only [Option.map_none', Option.getD_none]
    split
    · cases en <;> simp [comment_line_nil, uncomment_line_nil]
    · rfl
  | some l =>
    simp only [Option.map_some', Option.getD_some]
    split
    · cases en <;> rfl
    · rfl

theorem switch_length (lines : List Line) (sp : Nat × Nat) (en : Bool) :
    (switch_spawn_block lines sp en).length = lines.length :=
  switch_spawn_block_length ..

/-- `switch_spawn_block` leaves the suffix after the span untouched. -/
theorem switch_drop (lines : List Line) (sp : Nat × Nat) (en : Bool) (n : Nat)
    (h : sp.2 < n) : (switch_spawn_block lines sp en).drop n = lines.drop n := by
  apply List.ext_get?
  intro m
  rw [List.get?_drop, List.get?_drop]
  have := lineAt_switch lines sp en (n + m)
  rw [if_neg (by omega)] at this
  unfold lineAt at this
  cases h1 : lines.get? (n + m) with
  | none =>
    cases h2 : (switch_spawn_block lines sp en).get? (n + m) with
    | none => rfl
    | some l =>
      exfalso
      have hlen := switch_length lines sp en
      have hn1 := List.get?_eq_none.mp h1
      obtain ⟨hlt, -⟩ := List.get?_eq_some.mp h2
      omega
  | some l =>
    cases h2 : (switch_spawn_block lines sp en).get? (n + m) with
    | none =>
      exfalso
      have hlen := switch_length lines sp en
      have hn2 := List.get?_eq_none.mp h2
      obtain ⟨hlt, -⟩ := List.get?_eq_some.mp h1
      omega
    | some l' =>
      rw [h1, h2] at this
      simpa using this

theorem applySwitches_drop (mode : SpawnKind) (lines : List Line)
    (u d : Option (Nat × Nat)) (n : Nat)
    (hu : ∀ sp, u = some sp → sp.2 < n) (hd : ∀ sp, d = some sp → sp.2 < n) :
    (applySwitches mode lines u d).drop n = lines.drop n := by
  cases mode <;> cases hu' : u <;> cases hd' : d <;>
    simp only [applySwitches] <;>
    (try rw [switch_drop _ _ _ _ (hu _ hu')]) <;>
    (try rw [switch_drop _ _ _ _ (hd _ hd')]) <;>
    (try rw [switch_drop _ _ _ _ (hu _ hu')])


/-- The located span of the requested kind. -/
def targetSpan (mode : SpawnKind)
    (spans : Option (Nat × Nat) × Option (Nat × Nat)) : Option (Nat × Nat) :=
  match mode with
  | SpawnKind.urdf => spans.1
  | SpawnKind.usd => spans.2

/-- The located span of the other (to-be-disabled) kind. -/
def otherSpan (mode : SpawnKind)
    (spans : Option (Nat × Nat) × Option (Nat × Nat)) : Option (Nat × Nat) :=
  match mode with
  | SpawnKind.urdf => spans.2
  | SpawnKind.usd => spans.1

/-- The spans returned by `locate_spawn_blocks_within` satisfy `spanOK`
and are disjoint. -/
theorem locate_spans_ok (lines : List Line) (s e : Nat) :
    (∀ sp, (locate_spawn_blocks_within lines s e).1 = some sp →
      spanOK lines s e SpawnKind.urdf sp) ∧
    (∀ sp, (locate_spawn_blocks_within lines s e).2 = some sp →
      spanOK lines s e SpawnKind.usd sp) ∧
    (∀ sp sq, (locate_spawn_blocks_within lines s e).1 = some sp →
      (locate_spawn_blocks_within lines s e).2 = some sq →
      sp.2 < sq.1 ∨ sq.2 < sp.1) :=
  locateGo_spec lines s e (e + 1 - s) s none none (le_refl s) (by omega)
    (fun sp h => by simp at h) (fun sp h => by simp at h)
    (fun sp sq h1 _ => by simp at h1)

/-- At an index missed by both spans, `applySwitches` changes nothing. -/
theorem lineAt_applySwitches_miss (mode : SpawnKind) (lines : List Line)
    (u d : Option (Nat × Nat)) (k : Nat)
    (hu : ∀ sp, u = some sp → k < sp.1 ∨ sp.2 < k)
    (hd : ∀ sp, d = some sp → k < sp.1 ∨ sp.2 < k) :
    lineAt (applySwitches mode lines u d) k = lineAt lines k := by
  cases mode <;> cases hu' : u <;> cases hd' : d <;>
    simp only [applySwitches] <;>
    (try rw [lineAt_switch, if_neg (by have := hd _ hd'; omega)]) <;>
    (try rw [lineAt_switch, if_neg (by have := hu _ hu'; omega)]) <;>
    (try rw [lineAt_switch, if_neg (by have := hd _ hd'; omega)])

/-- On the requested kind's span (away from the other span), `applySwitches`
applies `uncomment_line`. -/
theorem lineAt_applySwitches_enable (mode : SpawnKind) (lines : List Line)
    (u d : Option (Nat × Nat)) (sp : Nat × Nat) (k : Nat)
    (hsp : targetSpan mode (u, d) = some sp)
    (hk1 : sp.1 ≤ k) (hk2 : k ≤ sp.2)
    (ho : ∀ sq, otherSpan mode (u, d) = some sq → k < sq.1 ∨ sq.2 < k) :
    lineAt (applySwitches mode lines u d) k = uncomment_line (lineAt lines k) := by
  cases mode with
  | urdf =>
    simp only [targetSpan, otherSpan] at hsp ho
    subst hsp
    cases hd' : d with
    | none =>
      simp only [applySwitches]
      rw [lineAt_switch, if_pos ⟨hk1, hk2⟩]
      rfl
    | some sq =>
      simp only [applySwitches]
      rw [lineAt_switch, if_neg (by have := ho _ hd'; omega)]
      rw [lineAt_switch, if_pos ⟨hk1, hk2⟩]
      rfl
  | usd =>
    simp only [targetSpan, otherSpan] at hsp ho
    subst hsp
    cases hu' : u with
    | none =>
      simp only [applySwitches]
      rw [lineAt_switch, if_pos ⟨hk1, hk2⟩]
      rfl
    | some sq =>
      simp only [applySwitches]
      rw [lineAt_switch, if_neg (by have := ho _ hu'; omega)]
      rw [lineAt_switch, if_pos ⟨hk1, hk2⟩]
      rfl

/-- On the other kind's span (away from the requested span), `applySwitches`
applies `comment_line`. -/
theorem lineAt_applySwitches_disable (mode : SpawnKind) (lines : List Line)
    (u d : Option (Nat × Nat)) (sq : Nat × Nat) (k : Nat)
    (hsq : otherSpan mode (u, d) = some sq)
    (hk1 : sq.1 ≤ k) (hk2 : k ≤ sq.2)
    (ho : ∀ sp, targetSpan mode (u, d) = some sp → k < sp.1 ∨ sp.2 < k) :
    lineAt (applySwitches mode lines u d) k = comment_line (lineAt lines k) := by
  cases mode with
  | urdf =>
    simp only [targetSpan, otherSpan] at hsq ho
    subst hsq
    cases hu' : u with
    | none =>
      simp only [applySwitches]
      rw [lineAt_switch, if_pos ⟨hk1, hk2⟩]
      rfl
    | some sp =>
      simp only [applySwitches]
      rw [lineAt_switch, if_pos ⟨hk1, hk2⟩]
      have hmiss := ho _ hu'
      rw [lineAt_switch, if_neg (show ¬(sp.1 ≤ k ∧ k ≤ sp.2) by omega)]
      rfl
  | usd =>
    simp only [targetSpan, otherSpan] at hsq ho
    subst hsq
    cases hd' : d with
    | none =>
      simp only [applySwitches]
      rw [lineAt_switch, if_pos ⟨hk1, hk2⟩]
      rfl
    | some sp =>
      simp only [applySwitches]
      rw [lineAt_switch, if_pos ⟨hk1, hk2⟩]
      have hmiss := ho _ hd'
      rw [lineAt_switch, if_neg (show ¬(sp.1 ≤ k ∧ k ≤ sp.2) by omega)]
      rfl

/-- The patch loop never modifies a line before its current scan index. -/
theorem patchGo_frame (mode : SpawnKind) :
    ∀ (fuel : Nat) (lines : List Line) (i cfg us ud k : Nat), k < i →
      lineAt (patchGo mode fuel lines i cfg us ud).1 k = lineAt lines k := by
  intro fuel
  induction fuel with
  | zero => intro lines i cfg us ud k hk; rfl
  | succ fuel ih =>
    intro lines i cfg us ud k hk
    rw [patchGo]
    by_cases h : i < lines.length
    · rw [dif_pos h]
      by_cases hc : cfgStartAt (lines.get ⟨i, h⟩) = true
      · rw [if_pos hc]
        dsimp only
        have hloc := locate_spans_ok lines i (find_cfg_block_end lines i)
        have hbe := le_find_cfg_block_end lines i h
        rw [ih _ _ _ _ _ _ (show k < find_cfg_block_end lines i + 1 by omega)]
        exact lineAt_applySwitches_miss mode lines _ _ k
          (fun sp hsp => by have := (hloc.1 sp hsp).1; omega)
          (fun sp hsp => by have := (hloc.2.1 sp hsp).1; omega)
      · rw [if_neg hc]
        exact ih _ _ _ _ _ _ (by omega)
    · rw [dif_neg h]


/-- **C2.**  Exclusivity of the patch.  Whenever the loop of
`patch_spawn_modes` reaches an enclosing-region start line whose located
sub-blocks include both the requested kind's span and the other kind's
span, then in the loop's final output every line of the requested span is
the `uncomment_line` image of the line held on arrival (the span is fully
uncommented) and every line of the other kind's span is the `comment_line`
image (fully commented); later iterations never revisit these indices. -/
theorem c2_exclusive_spans (mode : SpawnKind) (fuel : Nat) (lines : List Line)
    (i cfg us ud : Nat) (spT spO : Nat × Nat)
    (h : i < lines.length)
    (hc : cfgStartAt (lines.get ⟨i, h⟩) = true)
    (hT : targetSpan mode
      (locate_spawn_blocks_within lines i (find_cfg_block_end lines i)) = some spT)
    (hO : otherSpan mode
      (locate_spawn_blocks_within lines i (find_cfg_block_end lines i)) = some spO) :
    (∀ k, spT.1 ≤ k → k ≤ spT.2 →
      lineAt (patchGo mode (fuel + 1) lines i cfg us ud).1 k
        = uncomment_line (lineAt lines k)) ∧
    (∀ k, spO.1 ≤ k → k ≤ spO.2 →
      lineAt (patchGo mode (fuel + 1) lines i cfg us ud).1 k
        = comment_line (lineAt lines k)) := by
  have hloc := locate_spans_ok lines i (find_cfg_block_end lines i)
  have hbe := le_find_cfg_block_end lines i h
  have hT2 : spT.2 ≤ find_cfg_block_end lines i := by
    cases mode with
    | urdf =>
      simp only [targetSpan] at hT
      exact (hloc.1 spT hT).2.2.1
    | usd =>
      simp only [targetSpan] at hT
      exact (hloc.2.1 spT hT).2.2.1
  have hO2 : spO.2 ≤ find_cfg_block_end lines i := by
    cases mode with
    | urdf =>
      simp only [otherSpan] at hO
      exact (hloc.2.1 spO hO).2.2.1
    | usd =>
      simp only [otherSpan] at hO
      exact (hloc.1 spO hO).2.2.1
  have hdsj : spT.2 < spO.1 ∨ spO.2 < spT.1 := by
    cases mode with
    | urdf =>
      simp only [targetSpan, otherSpan] at hT hO
      exact hloc.2.2 spT spO hT hO
    | usd =>
      simp only [targetSpan, otherSpan] at hT hO
      rcases hloc.2.2 spO spT hO hT with h1 | h1
      · right; exact h1
      · left; exact h1
  constructor
  · intro k hk1 hk2
    rw [patchGo, dif_pos h, if_pos hc]
    dsimp only
    rw [patchGo_frame mode fuel _ _ _ _ _ _
      (show k < find_cfg_block_end lines i + 1 by omega)]
    exact lineAt_applySwitches_enable mode lines _ _ spT k hT hk1 hk2
      (fun sq hsq => by
        rw [hO] at hsq
        injection hsq with he
        subst he
        omega)
  · intro k hk1 hk2
    rw [patchGo, dif_pos h, if_pos hc]
    dsimp only
    rw [patchGo_frame mode fuel _ _ _ _ _ _
      (show k < find_cfg_block_end lines i + 1 by omega)]
    exact lineAt_applySwitches_disable mode lines _ _ spO k hO hk1 hk2
      (fun sp hsp => by
        rw [hT] at hsp
        injection hsp with he
        subst he
        omega)

/-- Witness for C2: on a document holding one region with an uncommented
URDF block and a commented USD block, patching to USD leaves the USD span
lines uncommented and the URDF span lines commented in the final output. -/
theorem c2_witness :
    lineAt (patchGo SpawnKind.usd 8
        (splitlinesTrue
          ("A_CFG = UnitreeArticulationCfg(\n    spawn=UnitreeUrdfFileCfg(\n        x=1,\n    ),\n    # spawn=UnitreeUsdFileCfg(\n    #     y=2,\n    # ),\n)\n").toList)
        0 0 0 0).1 4
      = uncomment_line (lineAt
        (splitlinesTrue
          ("A_CFG = UnitreeArticulationCfg(\n    spawn=UnitreeUrdfFileCfg(\n        x=1,\n    ),\n    # spawn=UnitreeUsdFileCfg(\n    #     y=2,\n    # ),\n)\n").toList) 4) ∧
    lineAt (patchGo SpawnKind.usd 8
        (splitlinesTrue
          ("A_CFG = UnitreeArticulationCfg(\n    spawn=UnitreeUrdfFileCfg(\n        x=1,\n    ),\n    # spawn=UnitreeUsdFileCfg(\n    #     y=2,\n    # ),\n)\n").toList)
        0 0 0 0).1 1
      = comment_line (lineAt
        (splitlinesTrue
          ("A_CFG = UnitreeArticulationCfg(\n    spawn=UnitreeUrdfFileCfg(\n        x=1,\n    ),\n    # spawn=UnitreeUsdFileCfg(\n    #     y=2,\n    # ),\n)\n").toList) 1) := by
  have hmain := c2_exclusive_spans SpawnKind.usd 7
    (splitlinesTrue
      ("A_CFG = UnitreeArticulationCfg(\n    spawn=UnitreeUrdfFileCfg(\n        x=1,\n    ),\n    # spawn=UnitreeUsdFileCfg(\n    #     y=2,\n    # ),\n)\n").toList)
    0 0 0 0 (4, 6) (1, 3) (by decide) (by decide) (by decide) (by decide)
  exact ⟨hmain.1 4 (by decide) (by decide), hmain.2 1 (by decide) (by decide)⟩


/-!
## Claim C3: idempotence of the whole-document patch

Support, part 1: the serialize/re-split round trip.  A list of lines whose
bodies are break-free, whose terminators are valid, nonempty and not a bare
carriage return (except that the final line may be unterminated), is
recovered verbatim by `splitlinesTrue` from its `joinLines` image.
-/

theorem splitGo_cons_nobreak {c : Char} (hc : isLineBreak c = false)
    (t acc : List Char) : splitGo (c :: t) acc = splitGo t (c :: acc) := by
  cases t with
  | nil =>
    simp only [splitGo]
    rw [if_neg (by simp [hc]), if_neg (by simp)]
  | cons d u =>
    simp only [splitGo]
    rw [if_neg (by rintro ⟨rfl, -⟩; simp [isLineBreak] at hc), if_neg (by simp [hc])]

theorem splitGo_cons_break {c : Char} (hc : isLineBreak c = true)
    {t : List Char} (hno : ¬(c = '\r' ∧ t.head? = some '\n')) (acc : List Char) :
    splitGo (c :: t) acc = (acc.reverse ++ [c]) :: splitGo t [] := by
  cases t with
  | nil =>
    rw [show splitGo ([] : List Char) [] = [] from rfl]
    simp only [splitGo]
    rw [if_pos hc]
  | cons d u =>
    simp only [splitGo]
    rw [if_neg (by rintro ⟨rfl, rfl⟩; exact hno ⟨rfl, rfl⟩), if_pos hc]

theorem splitGo_crlf (u acc : List Char) :
    splitGo ('\r' :: '\n' :: u) acc = (acc.reverse ++ ['\r', '\n']) :: splitGo u [] := by
  simp [splitGo]

theorem splitGo_body (b : List Char) (hb : noBreak b = true) :
    ∀ r acc, splitGo (b ++ r) acc = splitGo r (b.reverse ++ acc) := by
  induction b with
  | nil => intro r acc; simp
  | cons c b ih =>
    intro r acc
    simp only [noBreak, List.all_cons, Bool.and_eq_true, Bool.not_eq_true'] at hb
    rw [List.cons_append, splitGo_cons_nobreak hb.1, ih (by simpa [noBreak] using hb.2)]
    simp

/-- One canonical line is split off the front of the character stream. -/
theorem splitGo_line (b t s : List Char) (hb : noBreak b = true)
    (ht : validTerm t = true) (hne : t ≠ []) (hcr : t ≠ ['\r']) :
    splitGo ((b ++ t) ++ s) [] = (b ++ t) :: splitGo s [] := by
  rw [List.append_assoc, splitGo_body b hb]
  rcases validTerm_cases ht with rfl | rfl | ⟨c, rfl, hc⟩
  · exact absurd rfl hne
  · rw [List.cons_append, List.cons_append, splitGo_crlf]
    simp
  · have hcn : ¬(c = '\r' ∧ s.head? = some '\n') := by
      rintro ⟨rfl, -⟩
      exact hcr rfl
    simp only [List.cons_append, List.nil_append]
    rw [splitGo_cons_break hc hcn]
    simp

/-- Shape invariant of the lines produced by `splitlinesTrue`: break-free
body plus valid terminator, nonempty, and terminated except possibly at the
very end. -/
def GoodSplit : List Line → Prop
  | [] => True
  | [l] => (∃ b t, l = b ++ t ∧ noBreak b = true ∧ validTerm t = true) ∧ l ≠ []
  | l :: m :: M =>
    (∃ b t, l = b ++ t ∧ noBreak b = true ∧ validTerm t = true ∧ t ≠ []) ∧
    GoodSplit (m :: M)

theorem GoodSplit_cons {l : Line} {M : List Line}
    (hl : ∃ b t, l = b ++ t ∧ noBreak b = true ∧ validTerm t = true ∧ t ≠ [])
    (hM : GoodSplit M) : GoodSplit (l :: M) := by
  cases M with
  | nil =>
    obtain ⟨b, t, rfl, hb, ht, hne⟩ := hl
    refine ⟨⟨b, t, rfl, hb, ht⟩, ?_⟩
    intro hcon
    rcases List.append_eq_nil.mp hcon with ⟨-, h2⟩
    exact hne h2
  | cons m M => exact ⟨hl, hM⟩

theorem splitGo_nil_good (acc : List Char) (hacc : noBreak acc.reverse = true) :
    GoodSplit (splitGo [] acc) := by
  simp only [splitGo]
  split
  · trivial
  · exact ⟨⟨acc.reverse, [], by simp, hacc, rfl⟩, by simpa using (by assumption)⟩

theorem splitGo_good :
    ∀ (n : Nat) (s acc : List Char), s.length ≤ n →
      noBreak acc.reverse = true → GoodSplit (splitGo s acc) := by
  intro n
  induction n with
  | zero =>
    intro s acc hs hacc
    rw [List.length_eq_zero.mp (Nat.le_zero.mp hs)]
    exact splitGo_nil_good acc hacc
  | succ n ih =>
    intro s acc hs hacc
    cases s with
    | nil => exact splitGo_nil_good acc hacc
    | cons c u =>
      by_cases hc : isLineBreak c = true
      · by_cases hcr : c = '\r' ∧ u.head? = some '\n'
        · obtain ⟨rfl, hu⟩ := hcr
          cases u with
          | nil => simp at hu
          | cons d u =>
            simp only [List.head?_cons, Option.some.injEq] at hu
            subst hu
            rw [splitGo_crlf]
            refine GoodSplit_cons ⟨acc.reverse, ['\r', '\n'], rfl, hacc, rfl, by simp⟩ ?_
            exact ih u [] (by simp at hs; omega) rfl
        · rw [splitGo_cons_break hc hcr]
          refine GoodSplit_cons
            ⟨acc.reverse, [c], rfl, hacc, by simp [validTerm, hc], by simp⟩ ?_
          exact ih u [] (by simp at hs; omega) rfl
      · rw [splitGo_cons_nobreak (by simpa using hc)]
        refine ih u (c :: acc) (by simp at hs; omega) ?_
        simp only [List.reverse_cons, noBreak, List.all_append, Bool.and_eq_true]
        refine ⟨by simpa [noBreak] using hacc, by simp [hc]⟩

theorem splitlinesTrue_good (s : List Char) : GoodSplit (splitlinesTrue s) :=
  splitGo_good s.length s [] (le_refl _) rfl

/-- Index-wise consequences of `GoodSplit`. -/
theorem GoodSplit_facts {M : List Line} (h : GoodSplit M) :
    (∀ j, j < M.length →
       ∃ b t, lineAt M j = b ++ t ∧ noBreak b = true ∧ validTerm t = true) ∧
    (∀ j, j < M.length → lineAt M j ≠ []) ∧
    (∀ j, j + 1 < M.length → termOf (lineAt M j) ≠ []) := by
  induction M with
  | nil => exact ⟨fun j hj => absurd hj (by simp), fun j hj => absurd hj (by simp),
      fun j hj => absurd hj (by simp)⟩
  | cons l M ih =>
    have hstep : (∃ b t, l = b ++ t ∧ noBreak b = true ∧ validTerm t = true ∧
        (M ≠ [] → t ≠ [])) ∧ l ≠ [] ∧ GoodSplit M := by
      cases M with
      | nil =>
        obtain ⟨⟨b, t, rfl, hb, ht⟩, hne⟩ := h
        exact ⟨⟨b, t, rfl, hb, ht, fun hcon => absurd rfl hcon⟩, hne, trivial⟩
      | cons m M =>
        obtain ⟨⟨b, t, rfl, hb, ht, hne⟩, hM⟩ := h
        refine ⟨⟨b, t, rfl, hb, ht, fun _ => hne⟩, ?_, hM⟩
        intro hcon
        rcases List.append_eq_nil.mp hcon with ⟨-, h2⟩
        exact hne h2
    obtain ⟨⟨b, t, hl, hb, ht, hterm⟩, hlne, hM⟩ := hstep
    obtain ⟨ih1, ih2, ih3⟩ := ih hM
    refine ⟨?_, ?_, ?_⟩
    · intro j hj
      cases j with
      | zero => exact ⟨b, t, by simpa [lineAt] using hl, hb, ht⟩
      | succ j => simpa [lineAt] using ih1 j (by simpa using hj)
    · intro j hj
      cases j with
      | zero => simpa [lineAt] using hlne
      | succ j => simpa [lineAt] using ih2 j (by simpa using hj)
    · intro j hj
      cases j with
      | zero =>
        have hMne : M ≠ [] := by
          intro hcon
          rw [hcon] at hj
          simp at hj
        have : lineAt (l :: M) 0 = b ++ t := by simpa [lineAt] using hl
        rw [this, termOf_append b t hb ht]
        exact hterm hMne
      | succ j => simpa [lineAt] using ih3 j (by simpa using hj)

/-- `splitlinesTrue` is a left inverse of `joinLines` on canonical line
lists. -/
theorem splitJoin :
    ∀ (M : List Line),
      (∀ j, j < M.length →
        ∃ b t, lineAt M j = b ++ t ∧ noBreak b = true ∧ validTerm t = true) →
      (∀ j, j < M.length → lineAt M j ≠ []) →
      (∀ j, j + 1 < M.length → termOf (lineAt M j) ≠ []) →
      (∀ j, j < M.length → termOf (lineAt M j) ≠ ['\r']) →
      splitlinesTrue (joinLines M) = M := by
  intro M
  induction M with
  | nil => intro _ _ _ _; rfl
  | cons l M ih =>
    intro h1 h2 h3 h4
    obtain ⟨b, t, hl, hb, ht⟩ := h1 0 (by simp)
    rw [show lineAt (l :: M) 0 = l from by simp [lineAt]] at hl
    have hterm0 : termOf l = t := by rw [hl]; exact termOf_append b t hb ht
    cases M with
    | nil =>
      have hlne : l ≠ [] := by simpa [lineAt] using h2 0 (by simp)
      subst hl
      show splitGo ((b ++ t) ++ []) [] = [b ++ t]
      by_cases hte : t = []
      · subst hte
        rw [List.append_nil, List.append_nil, ← List.append_nil b, splitGo_body b hb]
        have hbne : b.reverse ++ [] ≠ [] := by
          simpa using fun hcon => hlne (by simp [hcon])
        simp only [splitGo]
        rw [if_neg hbne]
        simp
      · have hcr : t ≠ ['\r'] := by
          have := h4 0 (by simp)
          rw [show lineAt [b ++ t] 0 = b ++ t from by simp [lineAt],
            termOf_append b t hb ht] at this
          exact this
        rw [splitGo_line b t [] hb ht hte hcr]
        rfl
    | cons m M =>
      have hte : t ≠ [] := by
        have := h3 0 (by simp)
        rw [show lineAt (l :: m :: M) 0 = l from by simp [lineAt], hterm0] at this
        exact this
      have hcr : t ≠ ['\r'] := by
        have := h4 0 (by simp)
        rw [show lineAt (l :: m :: M) 0 = l from by simp [lineAt], hterm0] at this
        exact this
      show splitGo (l ++ joinLines (m :: M)) [] = l :: m :: M
      rw [hl, splitGo_line b t (joinLines (m :: M)) hb ht hte hcr, ← hl]
      have := ih (fun j hj => by simpa [lineAt] using h1 (j + 1) (by simpa using hj))
        (fun j hj => by simpa [lineAt] using h2 (j + 1) (by simpa using hj))
        (fun j hj => by simpa [lineAt] using h3 (j + 1) (by simpa using hj))
        (fun j hj => by simpa [lineAt] using h4 (j + 1) (by simpa using hj))
      rw [show splitlinesTrue (joinLines (m :: M))
        = splitGo (joinLines (m :: M)) [] from rfl] at this
      rw [this]


/-!
Support, part 2: helper facts about whitespace classes, `rstripNl`, the
literal matchers, and the disjointness of the header and region-start
patterns.
-/

theorem pyIsSpace_eq (c : Char) :
    pyIsSpace c = (isIndentChar c || isLineBreak c) := by
  simp [pyIsSpace, isIndentChar, Bool.or_assoc]

theorem not_pyIsSpace_of {c : Char} (hi : isIndentChar c = false)
    (hb : isLineBreak c = false) : pyIsSpace c = false := by
  rw [pyIsSpace_eq, hi, hb]
  rfl

theorem dropWhile_head_false {p : Char → Bool} :
    ∀ (x : List Char) (c : Char), (x.dropWhile p).head? = some c → p c = false := by
  intro x
  induction x with
  | nil => intro c hc; simp at hc
  | cons a x ih =>
    intro c hc
    rw [List.dropWhile_cons] at hc
    by_cases ha : p a = true
    · rw [if_pos ha] at hc
      exact ih c hc
    · rw [if_neg ha] at hc
      simp only [List.head?_cons, Option.some.injEq] at hc
      subst hc
      simpa using ha

theorem dropWhile_eq_self_of {p : Char → Bool} {x : List Char}
    (h : ∀ c, x.head? = some c → p c = false) : x.dropWhile p = x := by
  cases x with
  | nil => rfl
  | cons a x => simp [List.dropWhile_cons, h a rfl]

theorem noBreak_sublist {x y : List Char} (h : x.Sublist y)
    (hy : noBreak y = true) : noBreak x = true := by
  simp only [noBreak, List.all_eq_true] at *
  exact fun c hc => hy c (h.mem hc)

theorem noBreak_dropWhile {p : Char → Bool} {x : List Char}
    (hx : noBreak x = true) : noBreak (x.dropWhile p) = true :=
  noBreak_sublist (List.dropWhile_sublist _) hx

theorem noBreak_takeWhile {p : Char → Bool} {x : List Char}
    (hx : noBreak x = true) : noBreak (x.takeWhile p) = true :=
  noBreak_sublist (List.takeWhile_sublist _) hx

theorem rstripNl_append (x t : List Char) (hx : noBreak x = true) :
    rstripNl (x ++ t) = x ++ rstripNl t := by
  unfold rstripNl
  rw [List.reverse_append, List.dropWhile_append]
  by_cases h : (t.reverse.dropWhile (fun c => decide (c = '\n'))).isEmpty = true
  · rw [if_pos h]
    have h2 : t.reverse.dropWhile (fun c => decide (c = '\n')) = [] := by
      simpa using h
    rw [dropWhile_eq_self_of, List.reverse_reverse, h2]
    · simp
    · intro c hc
      have hcx : c ∈ x := by
        rw [← List.mem_reverse]
        exact List.mem_of_mem_head? hc
      have := noBreak_mem hx hcx
      simp [ne_nl_of_not_break this]
  · rw [if_neg h]
    simp

theorem rstripNl_term {t : List Char} (ht : validTerm t = true) :
    rstripNl t = if t = ['\n'] ∨ t = ['\r', '\n'] then t.dropLast else t := by
  rcases validTerm_cases ht with rfl | rfl | ⟨c, rfl, hc⟩
  · rfl
  · rfl
  · by_cases h : c = '\n'
    · subst h; rfl
    · rw [if_neg (by simp [h])]
      unfold rstripNl
      simp [h]

theorem litThen_some {lit r r1 : List Char} (h : litThen lit r = some r1) :
    r = lit ++ r1 := by
  unfold litThen at h
  split at h
  · rename_i hp
    injection h with h
    subst h
    obtain ⟨u, hu⟩ := List.isPrefixOf_iff_prefix.mp hp
    subst hu
    simp
  · exact absurd h (by simp)

theorem headerCore_head {r : List Char} {k : SpawnKind}
    (h : headerCore r = some k) : r.head? = some 's' := by
  unfold headerCore at h
  cases hl : litThen ['s', 'p', 'a', 'w', 'n'] r with
  | none => rw [hl] at h; exact absurd h (by simp)
  | some r1 =>
    rw [litThen_some hl]
    rfl

theorem footerCore_head {r : List Char} (h : footerCore r = true) :
    r.head? = some ')' := by
  unfold footerCore at h
  split at h
  · rfl
  · exact absurd h (by simp)

/-- A line matching the spawn-header pattern never matches the
region-start pattern. -/
theorem header_ne_cfgStart {l : Line} {k : SpawnKind}
    (h : headerOf l = some k) : cfgStartAt l = false := by
  unfold headerOf matchSpawnHeader at h
  unfold cfgStartAt isCfgStart
  dsimp only
  generalize hgen : (rstripNl l).dropWhile isIndentChar = r at h ⊢
  unfold dropHashPrefix at h
  split at h
  · rename_i t
    rw [show List.takeWhile isVarChar ('#' :: t) = [] from rfl]
    simp
  · have hh := headerCore_head h
    cases r with
    | nil => simp at hh
    | cons a u =>
      simp only [List.head?_cons, Option.some.injEq] at hh
      subst hh
      rw [show List.takeWhile isVarChar ('s' :: u) = [] from rfl]
      simp


/-!
Support, part 3: the comment/uncomment toggles preserve every line
property the patch loop's control flow consults (paren balance, paren
presence, header match, footer match).
-/

theorem dropWhile_append_all {p : Char → Bool} {a : List Char}
    (ha : a.all p = true) (x : List Char) :
    (a ++ x).dropWhile p = x.dropWhile p := by
  induction a with
  | nil => rfl
  | cons c a ih =>
    simp only [List.all_cons, Bool.and_eq_true] at ha
    rw [List.cons_append, List.dropWhile_cons, if_pos ha.1, ih ha.2]

theorem dropWhile_all_nil {p : Char → Bool} {a : List Char}
    (ha : a.all p = true) : a.dropWhile p = [] := by
  rw [show a.dropWhile p = (a ++ []).dropWhile p by simp, dropWhile_append_all ha]
  rfl

theorem dropHashPrefix_eq_self {r : List Char} (h : r.head? ≠ some '#') :
    dropHashPrefix r = r := by
  unfold dropHashPrefix
  split
  · rename_i t
    exact absurd rfl h
  · rfl

theorem pyIsSpace_not_paren {c : Char} (h : pyIsSpace c = true) :
    c ≠ '(' ∧ c ≠ ')' := by
  simp only [pyIsSpace, isLineBreak, Bool.or_eq_true, decide_eq_true_eq] at h
  rcases h with (h | h) | h
  · subst h; exact ⟨by decide, by decide⟩
  · subst h; exact ⟨by decide, by decide⟩
  · rcases h with ((((((((h | h) | h) | h) | h) | h) | h) | h) | h) | h <;>
      (subst h; exact ⟨by decide, by decide⟩)

theorem validTerm_all_break {t : List Char} (ht : validTerm t = true) :
    ∀ c ∈ t, isLineBreak c = true := by
  rcases validTerm_cases ht with rfl | rfl | ⟨c, rfl, hc⟩
  · intro c hc; simp at hc
  · intro c hc
    rcases List.mem_pair.mp hc with rfl | rfl <;> rfl
  · intro d hd
    rw [List.mem_singleton.mp hd]
    exact hc

theorem rstripNl_all_break {t : List Char} (ht : validTerm t = true) :
    ∀ c ∈ rstripNl t, isLineBreak c = true := by
  intro c hc
  have hsub : (rstripNl t).Sublist t := by
    unfold rstripNl
    have h1 := List.Sublist.reverse
      (List.dropWhile_sublist (l := t.reverse) (fun c => decide (c = '\n')))
    simpa using h1
  exact validTerm_all_break ht c (hsub.mem hc)

theorem term_all_pyIsSpace {t : List Char} (ht : validTerm t = true) :
    t.all pyIsSpace = true := by
  rw [List.all_eq_true]
  intro c hc
  exact pyIsSpace_of_break (validTerm_all_break ht c hc)

theorem litThen_none_head {x d : Char} {lit u : List Char} (h : x ≠ d) :
    litThen (x :: lit) (d :: u) = none := by
  unfold litThen
  rw [if_neg]
  intro hcon
  rw [List.isPrefixOf_cons₂] at hcon
  simp only [Bool.and_eq_true, beq_iff_eq] at hcon
  exact h hcon.1

theorem headerCore_break {r : List Char} (h : ∀ c ∈ r, isLineBreak c = true) :
    headerCore r = none := by
  cases r with
  | nil => rfl
  | cons d u =>
    have hd := h d (by simp)
    have hds : ('s' : Char) ≠ d := by
      intro hcon
      rw [← hcon] at hd
      simp [isLineBreak] at hd
    unfold headerCore
    rw [litThen_none_head hds]

theorem footerCore_break {r : List Char} (h : ∀ c ∈ r, isLineBreak c = true) :
    footerCore r = false := by
  cases r with
  | nil => rfl
  | cons d u =>
    have hd := h d (by simp)
    unfold footerCore
    split
    · rename_i heq
      simp only [List.cons.injEq] at heq
      rw [heq.1] at hd
      simp [isLineBreak] at hd
    · rfl

theorem indent_no_paren {ind : List Char} (hi : ind.all isIndentChar = true) :
    ind.count '(' = 0 ∧ ind.count ')' = 0 ∧
    ind.any (fun c => c = '(') = false := by
  rw [List.all_eq_true] at hi
  refine ⟨List.count_eq_zero.mpr ?_, List.count_eq_zero.mpr ?_, ?_⟩
  · intro hcon
    have := hi '(' hcon
    simp [isIndentChar] at this
  · intro hcon
    have := hi ')' hcon
    simp [isIndentChar] at this
  · rw [List.any_eq_false]
    intro c hc
    have := hi c hc
    simp only [isIndentChar, Bool.or_eq_true, decide_eq_true_eq] at this
    rcases this with rfl | rfl <;> decide

theorem all_pyIsSpace_no_paren {x : List Char} (hx : x.all pyIsSpace = true) :
    x.count '(' = 0 ∧ x.count ')' = 0 ∧
    x.any (fun c => c = '(') = false := by
  rw [List.all_eq_true] at hx
  refine ⟨List.count_eq_zero.mpr ?_, List.count_eq_zero.mpr ?_, ?_⟩
  · intro hcon
    have := pyIsSpace_not_paren (hx '(' hcon)
    exact this.1 rfl
  · intro hcon
    have := pyIsSpace_not_paren (hx ')' hcon)
    exact this.2 rfl
  · rw [List.any_eq_false]
    intro c hc
    have := pyIsSpace_not_paren (hx c hc)
    simpa using this.1

theorem dropWhile_pyIsSpace_body {w rt : List Char} (hw : noBreak w = true)
    (hrt : ∀ c ∈ rt, isLineBreak c = true) :
    (w ++ rt).dropWhile pyIsSpace =
      if w.dropWhile isIndentChar = [] then []
      else w.dropWhile isIndentChar ++ rt := by
  induction w with
  | nil =>
    rw [List.nil_append, dropWhile_all_nil]
    · rfl
    · rw [List.all_eq_true]
      intro c hc
      exact pyIsSpace_of_break (hrt c hc)
  | cons c w ih =>
    simp only [noBreak, List.all_cons, Bool.and_eq_true, Bool.not_eq_true'] at hw
    by_cases hc : isIndentChar c = true
    · rw [List.cons_append, List.dropWhile_cons, if_pos (pyIsSpace_of_indent hc),
        List.dropWhile_cons, if_pos hc]
      exact ih (by simpa [noBreak] using hw.2)
    · have hsp : pyIsSpace c = false := not_pyIsSpace_of (by simpa using hc) hw.1
      rw [List.cons_append, List.dropWhile_cons, if_neg (by simp [hsp]),
        List.dropWhile_cons]
      rw [if_neg (show ¬ isIndentChar c = true from hc)]
      rw [if_neg (show ¬ (c :: w) = [] from by simp)]
      rfl


/-- Canonical decomposition of a shaped line into indentation, content and
terminator. -/
theorem line_parts {l b t : List Char} (hl : l = b ++ t)
    (hb : noBreak b = true) (ht : validTerm t = true) :
    l = b.takeWhile isIndentChar ++ (b.dropWhile isIndentChar ++ t) ∧
    (b.takeWhile isIndentChar).all isIndentChar = true ∧
    noBreak (b.dropWhile isIndentChar) = true ∧
    (∀ c, (b.dropWhile isIndentChar).head? = some c → isIndentChar c = false) ∧
    rstripNl l
      = b.takeWhile isIndentChar ++ (b.dropWhile isIndentChar ++ rstripNl t) := by
  have hsplit : b.takeWhile isIndentChar ++ b.dropWhile isIndentChar = b :=
    List.takeWhile_append_dropWhile ..
  refine ⟨?_, List.all_takeWhile .., noBreak_dropWhile hb,
    fun c hc => dropWhile_head_false _ c hc, ?_⟩
  · rw [hl, ← List.append_assoc, hsplit]
  · rw [hl, rstripNl_append b t hb, ← List.append_assoc, hsplit]

theorem status_comment {l b t : List Char} (hl : l = b ++ t)
    (hb : noBreak b = true) (ht : validTerm t = true) :
    headerOf (comment_line l) = headerOf l ∧
    footerAt (comment_line l) = footerAt l ∧
    lineDelta (comment_line l) = lineDelta l ∧
    hasOpen (comment_line l) = hasOpen l := by
  obtain ⟨hdecomp, hind, hnbr, hrh, hrstrip⟩ := line_parts hl hb ht
  by_cases hblank : isBlank l = true
  · rw [comment_line_blank hblank]
    exact ⟨rfl, rfl, rfl, rfl⟩
  · have hnb : (b.dropWhile isIndentChar).all pyIsSpace = false := by
      by_contra hcon
      rw [Bool.not_eq_false] at hcon
      refine hblank ?_
      rw [hdecomp]
      simp only [isBlank, List.all_append, Bool.and_eq_true]
      refine ⟨?_, hcon, term_all_pyIsSpace ht⟩
      rw [List.all_eq_true]
      intro c hc
      exact pyIsSpace_of_indent (List.all_eq_true.mp hind c hc)
    have hrne : b.dropWhile isIndentChar ≠ [] := by
      intro hcon
      rw [hcon] at hnb
      simp at hnb
    obtain ⟨c0, w0, hc0⟩ := List.exists_cons_of_ne_nil hrne
    have hc0mem : c0 ∈ b.dropWhile isIndentChar := by rw [hc0]; simp
    have hc0i : isIndentChar c0 = false := hrh c0 (by rw [hc0]; rfl)
    have hc0b : isLineBreak c0 = false := by
      have := List.all_eq_true.mp hnbr c0 hc0mem
      simpa using this
    have hc0s : pyIsSpace c0 = false := not_pyIsSpace_of hc0i hc0b
    have hdwrest : (b.dropWhile isIndentChar).dropWhile pyIsSpace
        = b.dropWhile isIndentChar := by
      refine dropWhile_eq_self_of ?_
      intro c hc
      rw [hc0] at hc
      simp only [List.head?_cons, Option.some.injEq] at hc
      subst hc
      exact hc0s
    by_cases hm : (((b.dropWhile isIndentChar).dropWhile pyIsSpace).head?
        = some '#')
    · rw [hdecomp, comment_line_marked _ _ t hind hnbr hrh ht hm]
      exact ⟨rfl, rfl, rfl, rfl⟩
    · rw [hdecomp, comment_line_genuine _ _ t hind hnbr hrh ht hnb hm]
      have hc0hash : c0 ≠ '#' := by
        intro hcon
        rw [hdwrest, hc0] at hm
        subst hcon
        exact hm rfl
      have hrt := rstripNl_all_break ht
      have hbody2 : noBreak (b.takeWhile isIndentChar
          ++ '#' :: ' ' :: b.dropWhile isIndentChar) = true := by
        simp only [noBreak, List.all_append, List.all_cons, Bool.and_eq_true]
        exact ⟨by simpa [noBreak] using noBreak_of_indent hind, by decide, by decide,
          by simpa [noBreak] using hnbr⟩
      have hheadrr : ∀ c, (b.dropWhile isIndentChar ++ rstripNl t).head? = some c →
          isIndentChar c = false ∧ pyIsSpace c = false ∧ c ≠ '#' := by
        intro c hc
        rw [hc0, List.cons_append, List.head?_cons] at hc
        injection hc with hc
        subst hc
        exact ⟨hc0i, hc0s, hc0hash⟩
      have hcoreE : dropHashPrefix
          ((rstripNl (b.takeWhile isIndentChar
            ++ '#' :: ' ' :: b.dropWhile isIndentChar ++ t)).dropWhile isIndentChar)
          = b.dropWhile isIndentChar ++ rstripNl t := by
        rw [show b.takeWhile isIndentChar ++ '#' :: ' ' :: b.dropWhile isIndentChar ++ t
            = (b.takeWhile isIndentChar ++ '#' :: ' ' :: b.dropWhile isIndentChar) ++ t
          by simp, rstripNl_append _ t hbody2]
        rw [show (b.takeWhile isIndentChar ++ '#' :: ' ' :: b.dropWhile isIndentChar)
            ++ rstripNl t
            = b.takeWhile isIndentChar
              ++ ('#' :: (' ' :: (b.dropWhile isIndentChar ++ rstripNl t))) by simp]
        rw [(takeWhile_append_of_all hind (x := '#' :: (' ' :: (b.dropWhile isIndentChar
          ++ rstripNl t))) (by intro c hc; injection hc with hc; subst hc; rfl)).2]
        show List.dropWhile pyIsSpace
            (' ' :: (List.dropWhile isIndentChar b ++ rstripNl t))
          = List.dropWhile isIndentChar b ++ rstripNl t
        rw [List.dropWhile_cons, if_pos (by decide)]
        rw [hc0, List.cons_append, List.dropWhile_cons, if_neg (by simp [hc0s])]
      have hcoreL : dropHashPrefix
          ((rstripNl l).dropWhile isIndentChar)
          = b.dropWhile isIndentChar ++ rstripNl t := by
        rw [hrstrip,
          (takeWhile_append_of_all hind
            (x := b.dropWhile isIndentChar ++ rstripNl t)
            (fun c hc => (hheadrr c hc).1)).2]
        refine dropHashPrefix_eq_self ?_
        intro hcon
        rw [hc0, List.cons_append, List.head?_cons] at hcon
        injection hcon with hcon
        exact hc0hash hcon
      refine ⟨?_, ?_, ?_, ?_⟩
      · show matchSpawnHeader _ = matchSpawnHeader _
        unfold matchSpawnHeader
        rw [hcoreE, ← hdecomp, hcoreL]
      · show isSpawnFooter _ = isSpawnFooter _
        unfold isSpawnFooter
        rw [hcoreE, ← hdecomp, hcoreL]
      · simp [lineDelta, List.count_append, List.count_cons]
      · simp [hasOpen, List.any_append, List.any_cons]


theorem head_not_break_term {t : List Char} (ht : validTerm t = true) :
    ∀ c, t.head? = some c → isIndentChar c = false :=
  fun c hc => break_not_indent (validTerm_all_break ht c (List.mem_of_mem_head? hc))

theorem marked_head {l : Line} (h : marked l = true) :
    (l.dropWhile isIndentChar).head? = some '#' := by
  simpa [marked] using h

theorem not_marked_head {l : Line} (h : marked l = false) :
    (l.dropWhile isIndentChar).head? ≠ some '#' := by
  simpa [marked] using h

theorem status_uncomment {l b t : List Char} (hl : l = b ++ t)
    (hb : noBreak b = true) (ht : validTerm t = true)
    (hs : singleMark l = true) :
    headerOf (uncomment_line l) = headerOf l ∧
    footerAt (uncomment_line l) = footerAt l ∧
    lineDelta (uncomment_line l) = lineDelta l ∧
    hasOpen (uncomment_line l) = hasOpen l := by
  obtain ⟨hdecomp, hind, hnbr, hrh, hrstrip⟩ := line_parts hl hb ht
  by_cases hmk : marked l = true
  case neg =>
    rw [uncomment_line_unmarked (by simpa using hmk)]
    exact ⟨rfl, rfl, rfl, rfl⟩
  case pos =>
  have hldrop : l.dropWhile isIndentChar = b.dropWhile isIndentChar ++ t := by
    rw [hdecomp]
    exact (takeWhile_append_of_all hind (head_not_indent_restt hrh ht)).2
  have hmh := marked_head hmk
  rw [hldrop] at hmh
  have hdw : ∃ w, b.dropWhile isIndentChar = '#' :: w := by
    cases hx : b.dropWhile isIndentChar with
    | nil =>
      rw [hx, List.nil_append] at hmh
      cases t with
      | nil => simp at hmh
      | cons c u =>
        simp only [List.head?_cons, Option.some.injEq] at hmh
        have := validTerm_all_break ht c (by simp)
        rw [hmh] at this
        simp [isLineBreak] at this
    | cons c w =>
      rw [hx, List.cons_append, List.head?_cons] at hmh
      injection hmh with hmh
      exact ⟨w, by rw [hmh]⟩
  obtain ⟨w, hdw⟩ := hdw
  have hw : noBreak w = true := by
    have := hnbr
    rw [hdw] at this
    simp only [noBreak, List.all_cons, Bool.and_eq_true] at this
    simpa [noBreak] using this.2
  have hl2 : l = b.takeWhile isIndentChar ++ '#' :: (w ++ t) := by
    rw [hdecomp, hdw]
    simp
  have hu := uncomment_line_genuine (b.takeWhile isIndentChar) w t hind hw ht
  rw [← hl2] at hu
  have hsm : marked (uncomment_line l) = false := by
    have := hs
    simp only [singleMark, Bool.not_eq_true'] at this
    exact this
  have hrt := rstripNl_all_break ht
  have hrtsp : (rstripNl t).all pyIsSpace = true := by
    rw [List.all_eq_true]
    exact fun c hc => pyIsSpace_of_break (hrt c hc)
  have htsp := term_all_pyIsSpace ht
  have hindnb := noBreak_of_indent hind
  -- the core of the original line
  have hcoreL : dropHashPrefix ((rstripNl l).dropWhile isIndentChar)
      = (w ++ rstripNl t).dropWhile pyIsSpace := by
    rw [hrstrip, hdw,
      (takeWhile_append_of_all hind
        (x := '#' :: w ++ rstripNl t)
        (by intro c hc
            rw [List.cons_append, List.head?_cons] at hc
            injection hc with hc
            subst hc
            rfl)).2]
    rw [List.cons_append]
    show List.dropWhile pyIsSpace (w ++ rstripNl t) = _
    rfl
  have hheaderL : headerOf l = headerCore ((w ++ rstripNl t).dropWhile pyIsSpace) := by
    unfold headerOf matchSpawnHeader
    rw [hcoreL]
  have hfooterL : footerAt l = footerCore ((w ++ rstripNl t).dropWhile pyIsSpace) := by
    unfold footerAt isSpawnFooter
    rw [hcoreL]
  cases w with
  | nil =>
    -- bare marker line: both sides have an all-whitespace core
    have hu0 : uncomment_line l = if t = ['\r', '\n']
        then b.takeWhile isIndentChar ++ ['\n'] else b.takeWhile isIndentChar := hu
    have hcoreL0 : (([] : List Char) ++ rstripNl t).dropWhile pyIsSpace = [] := by
      rw [List.nil_append]
      exact dropWhile_all_nil hrtsp
    have hcoreU : ∀ (u : List Char), u = b.takeWhile isIndentChar ∨
        u = b.takeWhile isIndentChar ++ ['\n'] →
        dropHashPrefix ((rstripNl u).dropWhile isIndentChar) = [] := by
      intro u hux
      have hru : rstripNl u = b.takeWhile isIndentChar := by
        rcases hux with rfl | rfl
        · rw [show b.takeWhile isIndentChar
              = b.takeWhile isIndentChar ++ ([] : List Char) by simp,
            rstripNl_append _ _ hindnb]
          rfl
        · rw [rstripNl_append _ _ hindnb]
          simp [rstripNl]
      rw [hru, dropWhile_all_nil hind]
      rfl
    obtain ⟨hi1, hi2, hi3⟩ := indent_no_paren hind
    obtain ⟨ht1, ht2, ht3⟩ := all_pyIsSpace_no_paren htsp
    by_cases htc : t = ['\r', '\n']
    · rw [if_pos htc] at hu0
      refine ⟨?_, ?_, ?_, ?_⟩
      · rw [hheaderL, hcoreL0, hu0]
        unfold headerOf matchSpawnHeader
        rw [hcoreU _ (Or.inr rfl)]
      · rw [hfooterL, hcoreL0, hu0]
        unfold footerAt isSpawnFooter
        rw [hcoreU _ (Or.inr rfl)]
      · rw [hu0, hl2]
        simp [lineDelta, List.count_append, List.count_cons, hi1, hi2, ht1, ht2]
      · rw [hu0, hl2]
        simp [hasOpen, List.any_append, List.any_cons, hi3, ht3]
    · rw [if_neg htc] at hu0
      refine ⟨?_, ?_, ?_, ?_⟩
      · rw [hheaderL, hcoreL0, hu0]
        unfold headerOf matchSpawnHeader
        rw [hcoreU _ (Or.inl rfl)]
      · rw [hfooterL, hcoreL0, hu0]
        unfold footerAt isSpawnFooter
        rw [hcoreU _ (Or.inl rfl)]
      · rw [hu0, hl2]
        simp [lineDelta, List.count_append, List.count_cons, hi1, hi2, ht1, ht2]
      · rw [hu0, hl2]
        simp [hasOpen, List.any_append, List.any_cons, hi3, ht3]
  | cons a w1 =>
    have hw1 : noBreak w1 = true := by
      simp only [noBreak, List.all_cons, Bool.and_eq_true] at hw
      simpa [noBreak] using hw.2
    have hanb : isLineBreak a = false := by
      simp only [noBreak, List.all_cons, Bool.and_eq_true, Bool.not_eq_true'] at hw
      exact hw.1
    have hbw1 : noBreak (b.takeWhile isIndentChar ++ w1) = true := by
      simp only [noBreak, List.all_append, Bool.and_eq_true]
      exact ⟨by simpa [noBreak] using hindnb, by simpa [noBreak] using hw1⟩
    have hbaw1 : noBreak (b.takeWhile isIndentChar ++ (a :: w1)) = true := by
      simp only [noBreak, List.all_append, List.all_cons, Bool.and_eq_true]
      exact ⟨by simpa [noBreak] using hindnb, by simp [hanb],
        by simpa [noBreak] using hw1⟩
    obtain ⟨hi1, hi2, hi3⟩ := indent_no_paren hind
    have hu1 : uncomment_line l = if pyIsSpace a = true
        then b.takeWhile isIndentChar ++ w1 ++ t
        else b.takeWhile isIndentChar ++ (a :: w1 ++ t) := hu
    by_cases hsp : pyIsSpace a = true
    · -- the \s? consumed the space `a`
      rw [if_pos hsp] at hu1
      obtain ⟨ha1, ha2⟩ := pyIsSpace_not_paren hsp
      have hl_core : ((a :: w1) ++ rstripNl t).dropWhile pyIsSpace
          = (w1 ++ rstripNl t).dropWhile pyIsSpace := by
        rw [List.cons_append, List.dropWhile_cons, if_pos (by simp [hsp])]
      have hbody := dropWhile_pyIsSpace_body hw1 hrt
      have hdelta : lineDelta (uncomment_line l) = lineDelta l ∧
          hasOpen (uncomment_line l) = hasOpen l := by
        rw [hu1, hl2]
        constructor
        · simp [lineDelta, List.count_append, List.count_cons, ha1, ha2]
        · simp [hasOpen, List.any_append, List.any_cons,
            fun h : a = '(' => ha1 h]
      cases hw2 : w1.dropWhile isIndentChar with
      | nil =>
        -- content is all indentation: both cores are effectively blank
        have hall : w1.all isIndentChar = true := by
          rw [List.all_eq_true]
          intro c hc
          by_contra hcon
          have := List.dropWhile_eq_nil_iff.mp hw2
          exact hcon (by simpa using this c hc)
        have hcoreU : dropHashPrefix ((rstripNl (uncomment_line l)).dropWhile
            isIndentChar) = rstripNl t := by
          rw [hu1, rstripNl_append _ _ hbw1, List.append_assoc,
            dropWhile_append_all hind, dropWhile_append_all hall,
            dropWhile_eq_self_of (by
              intro c hc
              exact break_not_indent (hrt c (List.mem_of_mem_head? hc)))]
          refine dropHashPrefix_eq_self ?_
          intro hcon
          have := hrt _ (List.mem_of_mem_head? hcon)
          simp [isLineBreak] at this
        rw [hbody, if_pos hw2] at hl_core
        refine ⟨?_, ?_, hdelta.1, hdelta.2⟩
        · rw [hheaderL, hl_core]
          unfold headerOf matchSpawnHeader
          rw [hcoreU, headerCore_break hrt,
            headerCore_break (by intro c hc; simp at hc)]
        · rw [hfooterL, hl_core]
          unfold footerAt isSpawnFooter
          rw [hcoreU, footerCore_break hrt,
            footerCore_break (by intro c hc; simp at hc)]
      | cons c1 v =>
        have hc1i : isIndentChar c1 = false :=
          dropWhile_head_false (x := w1) c1 (by rw [hw2]; rfl)
        have hc1mem : c1 ∈ w1 := by
          have hsub := List.dropWhile_sublist (l := w1) isIndentChar
          rw [hw2] at hsub
          exact hsub.mem (by simp)
        have hc1b : isLineBreak c1 = false := by
          have := List.all_eq_true.mp hw1 c1 hc1mem
          simpa using this
        have hc1s : pyIsSpace c1 = false := not_pyIsSpace_of hc1i hc1b
        have hsplit1 : w1.takeWhile isIndentChar ++ (c1 :: v) = w1 := by
          rw [← hw2]
          exact List.takeWhile_append_dropWhile ..
        have hdropw1 : ∀ (r : List Char), (w1 ++ r).dropWhile isIndentChar
            = c1 :: (v ++ r) := by
          intro r
          rw [← hsplit1, List.append_assoc,
            dropWhile_append_all (List.all_takeWhile ..), List.cons_append,
            List.dropWhile_cons, if_neg (by simp [hc1i])]
        have hc1hash : c1 ≠ '#' := by
          have hnm := not_marked_head hsm
          rw [hu1, List.append_assoc, dropWhile_append_all hind, hdropw1 t] at hnm
          intro hcon
          subst hcon
          exact hnm rfl
        have hcoreU : dropHashPrefix ((rstripNl (uncomment_line l)).dropWhile
            isIndentChar) = c1 :: (v ++ rstripNl t) := by
          rw [hu1, rstripNl_append _ _ hbw1, List.append_assoc,
            dropWhile_append_all hind, hdropw1 (rstripNl t)]
          refine dropHashPrefix_eq_self ?_
          intro hcon
          rw [List.head?_cons] at hcon
          injection hcon with hcon
          exact hc1hash hcon
        rw [hbody, if_neg (by rw [hw2]; simp), hw2] at hl_core
        refine ⟨?_, ?_, hdelta.1, hdelta.2⟩
        · rw [hheaderL, hl_core]
          unfold headerOf matchSpawnHeader
          rw [hcoreU, List.cons_append]
        · rw [hfooterL, hl_core]
          unfold footerAt isSpawnFooter
          rw [hcoreU, List.cons_append]
    · -- no whitespace after the marker: only '#' is removed
      rw [if_neg hsp] at hu1
      have hai : isIndentChar a = false := by
        by_contra hcon
        rw [Bool.not_eq_false] at hcon
        exact absurd (pyIsSpace_of_indent hcon) (by simpa using hsp)
      have hahash : a ≠ '#' := by
        have hnm := not_marked_head hsm
        rw [hu1, dropWhile_append_all hind, List.cons_append, List.dropWhile_cons,
          if_neg (by simp [hai]), List.head?_cons] at hnm
        intro hcon
        subst hcon
        exact hnm rfl
      have hl_core : ((a :: w1) ++ rstripNl t).dropWhile pyIsSpace
          = (a :: w1) ++ rstripNl t := by
        rw [List.cons_append, List.dropWhile_cons, if_neg (by simp [hsp])]
      have hcoreU : dropHashPrefix ((rstripNl (uncomment_line l)).dropWhile
          isIndentChar) = (a :: w1) ++ rstripNl t := by
        rw [hu1, show b.takeWhile isIndentChar ++ (a :: w1 ++ t)
            = (b.takeWhile isIndentChar ++ (a :: w1)) ++ t by simp,
          rstripNl_append _ _ hbaw1, List.append_assoc,
          dropWhile_append_all hind, List.cons_append, List.dropWhile_cons,
          if_neg (by simp [hai])]
        refine dropHashPrefix_eq_self ?_
        intro hcon
        rw [List.head?_cons] at hcon
        injection hcon with hcon
        exact hahash hcon
      refine ⟨?_, ?_, ?_, ?_⟩
      · rw [hheaderL, hl_core]
        unfold headerOf matchSpawnHeader
        rw [hcoreU, List.cons_append]
      · rw [hfooterL, hl_core]
        unfold footerAt isSpawnFooter
        rw [hcoreU, List.cons_append]
      · rw [hu1, hl2]
        simp [lineDelta, List.count_append, List.count_cons]
      · rw [hu1, hl2]
        simp [hasOpen, List.any_append, List.any_cons]


/-- `comment_line` keeps the terminator and the break-free body shape. -/
theorem comment_shape {l b t : List Char} (hl : l = b ++ t)
    (hb : noBreak b = true) (ht : validTerm t = true) :
    ∃ b2, comment_line l = b2 ++ t ∧ noBreak b2 = true ∧
      (l ≠ [] → comment_line l ≠ []) := by
  obtain ⟨hdecomp, hind, hnbr, hrh, -⟩ := line_parts hl hb ht
  by_cases hblank : isBlank l = true
  · exact ⟨b, by rw [comment_line_blank hblank, hl], hb,
      fun h => by rw [comment_line_blank hblank]; exact h⟩
  · have hnb : (b.dropWhile isIndentChar).all pyIsSpace = false := by
      by_contra hcon
      rw [Bool.not_eq_false] at hcon
      refine hblank ?_
      rw [hdecomp]
      simp only [isBlank, List.all_append, Bool.and_eq_true]
      refine ⟨?_, hcon, term_all_pyIsSpace ht⟩
      rw [List.all_eq_true]
      intro c hc
      exact pyIsSpace_of_indent (List.all_eq_true.mp hind c hc)
    by_cases hm : (((b.dropWhile isIndentChar).dropWhile pyIsSpace).head?
        = some '#')
    · refine ⟨b, ?_, hb, ?_⟩
      · rw [hdecomp, comment_line_marked _ _ t hind hnbr hrh ht hm, ← hdecomp, hl]
      · intro h
        rw [hdecomp, comment_line_marked _ _ t hind hnbr hrh ht hm, ← hdecomp]
        exact h
    · rw [hdecomp, comment_line_genuine _ _ t hind hnbr hrh ht hnb hm]
      refine ⟨b.takeWhile isIndentChar ++ '#' :: ' ' :: b.dropWhile isIndentChar,
        by simp, ?_, ?_⟩
      · simp only [noBreak, List.all_append, List.all_cons, Bool.and_eq_true]
        exact ⟨by simpa [noBreak] using noBreak_of_indent hind, by decide, by decide,
          by simpa [noBreak] using hnbr⟩
      · intro _ hcon
        rcases List.append_eq_nil.mp (by
          rw [show b.takeWhile isIndentChar ++ '#' :: ' ' :: b.dropWhile isIndentChar ++ t
              = (b.takeWhile isIndentChar ++ '#' :: ' ' :: b.dropWhile isIndentChar) ++ t
            by simp] at hcon
          exact hcon) with ⟨h1, -⟩
        rcases List.append_eq_nil.mp h1 with ⟨-, h2⟩
        exact List.noConfusion h2

/-- `uncomment_line` keeps the terminator and the break-free body shape,
whenever it keeps the terminator at all. -/
theorem uncomment_shape {l b t : List Char} (hl : l = b ++ t)
    (hb : noBreak b = true) (ht : validTerm t = true)
    (hterm : termOf (uncomment_line l) = termOf l) :
    ∃ b2, uncomment_line l = b2 ++ t ∧ noBreak b2 = true := by
  obtain ⟨hdecomp, hind, hnbr, hrh, -⟩ := line_parts hl hb ht
  have hindnb := noBreak_of_indent hind
  have hterml : termOf l = t := by rw [hl]; exact termOf_append b t hb ht
  by_cases hmk : marked l = true
  case neg =>
    exact ⟨b, by rw [uncomment_line_unmarked (by simpa using hmk), hl], hb⟩
  case pos =>
  have hldrop : l.dropWhile isIndentChar = b.dropWhile isIndentChar ++ t := by
    rw [hdecomp]
    exact (takeWhile_append_of_all hind (head_not_indent_restt hrh ht)).2
  have hmh := marked_head hmk
  rw [hldrop] at hmh
  have hdw : ∃ w, b.dropWhile isIndentChar = '#' :: w := by
    cases hx : b.dropWhile isIndentChar with
    | nil =>
      rw [hx, List.nil_append] at hmh
      cases t with
      | nil => simp at hmh
      | cons c u =>
        simp only [List.head?_cons, Option.some.injEq] at hmh
        have := validTerm_all_break ht c (by simp)
        rw [hmh] at this
        simp [isLineBreak] at this
    | cons c w =>
      rw [hx, List.cons_append, List.head?_cons] at hmh
      injection hmh with hmh
      exact ⟨w, by rw [hmh]⟩
  obtain ⟨w, hdw⟩ := hdw
  have hw : noBreak w = true := by
    have := hnbr
    rw [hdw] at this
    simp only [noBreak, List.all_cons, Bool.and_eq_true] at this
    simpa [noBreak] using this.2
  have hl2 : l = b.takeWhile isIndentChar ++ '#' :: (w ++ t) := by
    rw [hdecomp, hdw]
    simp
  have hu := uncomment_line_genuine (b.takeWhile isIndentChar) w t hind hw ht
  rw [← hl2] at hu
  cases w with
  | nil =>
    have hu0 : uncomment_line l = if t = ['\r', '\n']
        then b.takeWhile isIndentChar ++ ['\n'] else b.takeWhile isIndentChar := hu
    by_cases htc : t = ['\r', '\n']
    · rw [if_pos htc] at hu0
      exfalso
      rw [hu0, hterml, htc,
        termOf_append _ ['\n'] hindnb (by decide)] at hterm
      simp at hterm
    · rw [if_neg htc] at hu0
      have ht0 : t = [] := by
        rw [hu0, hterml,
          show b.takeWhile isIndentChar = b.takeWhile isIndentChar ++ ([] : List Char)
            by simp,
          termOf_append _ [] hindnb rfl] at hterm
        exact hterm.symm
      exact ⟨b.takeWhile isIndentChar, by rw [hu0, ht0]; simp, hindnb⟩
  | cons a w1 =>
    have hw1 : noBreak w1 = true := by
      simp only [noBreak, List.all_cons, Bool.and_eq_true] at hw
      simpa [noBreak] using hw.2
    have hanb : isLineBreak a = false := by
      simp only [noBreak, List.all_cons, Bool.and_eq_true, Bool.not_eq_true'] at hw
      exact hw.1
    have hu1 : uncomment_line l = if pyIsSpace a = true
        then b.takeWhile isIndentChar ++ w1 ++ t
        else b.takeWhile isIndentChar ++ (a :: w1 ++ t) := hu
    by_cases hsp : pyIsSpace a = true
    · rw [if_pos hsp] at hu1
      refine ⟨b.takeWhile isIndentChar ++ w1, by rw [hu1], ?_⟩
      simp only [noBreak, List.all_append, Bool.and_eq_true]
      exact ⟨by simpa [noBreak] using hindnb, by simpa [noBreak] using hw1⟩
    · rw [if_neg hsp] at hu1
      refine ⟨b.takeWhile isIndentChar ++ (a :: w1), by rw [hu1]; simp, ?_⟩
      simp only [noBreak, List.all_append, List.all_cons, Bool.and_eq_true]
      exact ⟨by simpa [noBreak] using hindnb, by simp [hanb],
        by simpa [noBreak] using hw1⟩

/-!
Support, part 4: congruence of the region/sub-block scanners under the
status-preserving per-line relation, and the toggle bookkeeping of the
patch loop.
-/

/-- The line is unchanged, commented or uncommented. -/
def toggleOf (x y : Line) : Prop :=
  y = x ∨ y = comment_line x ∨ y = uncomment_line x

/-- Equality of every per-line status the patch loop consults. -/
def statusEq (x y : Line) : Prop :=
  lineDelta y = lineDelta x ∧ hasOpen y = hasOpen x ∧
  headerOf y = headerOf x ∧ footerAt y = footerAt x

/-- The hypotheses of the idempotence claim, per line: canonical shape and
a single comment marker. -/
def goodLine (l : Line) : Prop :=
  (∃ b t, l = b ++ t ∧ noBreak b = true ∧ validTerm t = true) ∧
  singleMark l = true

theorem statusEq_refl (x : Line) : statusEq x x := ⟨rfl, rfl, rfl, rfl⟩

theorem statusEq_of_toggle {x y : Line} (hg : goodLine x) (ht : toggleOf x y) :
    statusEq x y := by
  obtain ⟨⟨b, t, hl, hb, htv⟩, hs⟩ := hg
  rcases ht with rfl | rfl | rfl
  · exact statusEq_refl _
  · obtain ⟨h1, h2, h3, h4⟩ := status_comment hl hb htv
    exact ⟨h3, h4, h1, h2⟩
  · obtain ⟨h1, h2, h3, h4⟩ := status_uncomment hl hb htv hs
    exact ⟨h3, h4, h1, h2⟩

theorem forall₂_of_pointwise {R : Line → Line → Prop} :
    ∀ (l1 l2 : List Line), l1.length = l2.length →
      (∀ j, j < l1.length → R (lineAt l1 j) (lineAt l2 j)) →
      List.Forall₂ R l1 l2 := by
  intro l1
  induction l1 with
  | nil =>
    intro l2 hlen _
    rw [List.length_nil] at hlen
    rw [List.eq_nil_of_length_eq_zero hlen.symm]
    exact List.Forall₂.nil
  | cons x l1 ih =>
    intro l2 hlen hp
    cases l2 with
    | nil => simp at hlen
    | cons y l2 =>
      refine List.Forall₂.cons ?_ (ih l2 (by simpa using hlen) ?_)
      · have := hp 0 (by simp)
        simpa [lineAt] using this
      · intro j hj
        have := hp (j + 1) (by simpa using hj)
        simpa [lineAt] using this

theorem forall₂_pointwise {R : Line → Line → Prop} {l1 l2 : List Line}
    (h : List.Forall₂ R l1 l2) :
    l1.length = l2.length ∧
    ∀ j, j < l1.length → R (lineAt l1 j) (lineAt l2 j) := by
  induction h with
  | nil => exact ⟨rfl, fun j hj => absurd hj (by simp)⟩
  | cons hxy hrest ih =>
    refine ⟨by simpa using ih.1, ?_⟩
    intro j hj
    cases j with
    | zero => simpa [lineAt] using hxy
    | succ j =>
      have := ih.2 j (by simpa using hj)
      simpa [lineAt] using this

theorem forall₂_drop {R : Line → Line → Prop} {l1 l2 : List Line}
    (h : List.Forall₂ R l1 l2) (n : Nat) :
    List.Forall₂ R (l1.drop n) (l2.drop n) := by
  obtain ⟨hlen, hp⟩ := forall₂_pointwise h
  refine forall₂_of_pointwise _ _ (by simp [hlen]) ?_
  intro j hj
  rw [lineAt_drop, lineAt_drop]
  exact hp (n + j) (by rw [List.length_drop] at hj; omega)

theorem lineAt_oob {M : List Line} {j : Nat} (h : M.length ≤ j) :
    lineAt M j = [] := by
  unfold lineAt
  rw [List.get?_eq_none.mpr h]
  rfl

/-- `cfgEndGo` only consults `lineDelta` and `hasOpen`. -/
theorem cfgEndGo_congr {l1 l2 : List Line}
    (h : List.Forall₂ statusEq l1 l2) :
    ∀ k d s, cfgEndGo l2 k d s = cfgEndGo l1 k d s := by
  induction h with
  | nil => intro k d s; rfl
  | cons hxy hrest ih =>
    intro k d s
    rw [cfgEndGo, cfgEndGo]
    rw [hxy.1, hxy.2.1]
    split
    · rfl
    · exact ih (k + 1) _ _

/-- `firstFooterIdx` only consults `footerAt`. -/
theorem firstFooterIdx_congr {l1 l2 : List Line}
    (h : List.Forall₂ statusEq l1 l2) :
    firstFooterIdx l2 = firstFooterIdx l1 := by
  induction h with
  | nil => rfl
  | cons hxy hrest ih =>
    rw [firstFooterIdx, firstFooterIdx, hxy.2.2.2, ih]


/-- `locateGo` only consults `headerOf` and `footerAt`. -/
theorem locateGo_congr {l1 l2 : List Line} (h : List.Forall₂ statusEq l1 l2)
    (e : Nat) :
    ∀ fuel i u d, locateGo l2 e fuel i u d = locateGo l1 e fuel i u d := by
  have hp := forall₂_pointwise h
  have hlen := hp.1
  have hhd : ∀ j, headerOf ((l2.get? j).getD []) = headerOf ((l1.get? j).getD []) := by
    intro j
    by_cases hj : j < l1.length
    · have := (hp.2 j hj).2.2.1
      simpa [lineAt] using this
    · rw [List.get?_eq_none.mpr (by omega), List.get?_eq_none.mpr (by omega)]
  have hff : ∀ j, firstFooterIdx (l2.drop j) = firstFooterIdx (l1.drop j) :=
    fun j => firstFooterIdx_congr (forall₂_drop h j)
  intro fuel
  induction fuel with
  | zero => intro i u d; rfl
  | succ fuel ih =>
    intro i u d
    rw [locateGo, locateGo]
    by_cases hie : i ≤ e
    · rw [if_pos hie, if_pos hie, hhd i]
      cases headerOf ((l1.get? i).getD []) with
      | none => exact ih (i + 1) u d
      | some kind =>
        rw [hff (i + 1)]
        cases firstFooterIdx (l1.drop (i + 1)) with
        | none => exact ih (i + 1) u d
        | some o =>
          dsimp only
          by_cases hje : e < i + 1 + o
          · rw [if_pos hje, if_pos hje]
            exact ih (i + 1) u d
          · rw [if_neg hje, if_neg hje]
            cases kind with
            | urdf =>
              dsimp only
              by_cases hun : u = none
              · subst hun
                rw [if_pos rfl, if_pos rfl]
                exact ih _ _ _
              · rw [if_neg hun, if_neg hun]
                exact ih _ _ _
            | usd =>
              dsimp only
              by_cases hdn : d = none
              · subst hdn
                rw [if_pos rfl, if_pos rfl]
                exact ih _ _ _
              · rw [if_neg hdn, if_neg hdn]
                exact ih _ _ _
    · rw [if_neg hie, if_neg hie]

theorem find_cfg_block_end_congr {l1 l2 : List Line}
    (h : List.Forall₂ statusEq l1 l2) (i : Nat) :
    find_cfg_block_end l2 i = find_cfg_block_end l1 i := by
  have hlen := (forall₂_pointwise h).1
  unfold find_cfg_block_end
  rw [← hlen]
  by_cases hi : i < l1.length
  · rw [if_pos hi, if_pos hi, cfgEndGo_congr (forall₂_drop h i)]
  · rw [if_neg hi, if_neg hi]

theorem locate_congr {l1 l2 : List Line} (h : List.Forall₂ statusEq l1 l2)
    (s e : Nat) :
    locate_spawn_blocks_within l2 s e = locate_spawn_blocks_within l1 s e := by
  unfold locate_spawn_blocks_within
  exact locateGo_congr h e _ s none none

theorem patchGo_length (mode : SpawnKind) :
    ∀ fuel L i c u s, (patchGo mode fuel L i c u s).1.length = L.length := by
  intro fuel
  induction fuel with
  | zero => intro L i c u s; rfl
  | succ fuel ih =>
    intro L i c u s
    rw [patchGo]
    by_cases h : i < L.length
    · rw [dif_pos h]
      by_cases hc : cfgStartAt (L.get ⟨i, h⟩) = true
      · rw [if_pos hc]
        dsimp only
        rw [ih, applySwitches_length]
      · rw [if_neg hc]
        exact ih L (i + 1) c u s
    · rw [dif_neg h]

theorem cfgEndGo_lt :
    ∀ (ls : List Line) (k : Nat) (d : Int) (s : Bool),
      ls ≠ [] → cfgEndGo ls k d s < k + ls.length := by
  intro ls
  induction ls with
  | nil => intro k d s h; exact absurd rfl h
  | cons l rest ih =>
    intro k d s _
    rw [cfgEndGo]
    split
    · simp
    · cases rest with
      | nil =>
        show cfgEndGo [] (k + 1) _ _ < _
        rw [cfgEndGo]
        simp
      | cons m r =>
        have h2 := ih (k + 1) (d + lineDelta l) (s || hasOpen l) (by simp)
        simp only [List.length_cons] at h2 ⊢
        omega

theorem find_cfg_block_end_lt {L : List Line} {i : Nat} (h : i < L.length) :
    find_cfg_block_end L i < L.length := by
  unfold find_cfg_block_end
  rw [if_pos h]
  have hne : L.drop i ≠ [] := by
    intro hcon
    have := congrArg List.length hcon
    rw [List.length_drop] at this
    simp at this
    omega
  have := cfgEndGo_lt (L.drop i) 0 0 false hne
  rw [List.length_drop] at this
  omega

theorem toggleOf_refl (x : Line) : toggleOf x x := Or.inl rfl

theorem lineAt_switch_toggleOf (lines : List Line) (sp : Nat × Nat) (en : Bool)
    (k : Nat) :
    toggleOf (lineAt lines k) (lineAt (switch_spawn_block lines sp en) k) := by
  rw [lineAt_switch]
  split
  · cases en
    · exact Or.inr (Or.inl rfl)
    · exact Or.inr (Or.inr rfl)
  · exact Or.inl rfl

theorem lineAt_applySwitches_toggleOf (mode : SpawnKind) (lines : List Line)
    (u d : Option (Nat × Nat)) (k : Nat)
    (hdisj : ∀ sp sq, u = some sp → d = some sq → sp.2 < sq.1 ∨ sq.2 < sp.1) :
    toggleOf (lineAt lines k) (lineAt (applySwitches mode lines u d) k) := by
  cases mode with
  | urdf =>
    cases hu : u with
    | none =>
      cases hd : d with
      | none => exact toggleOf_refl _
      | some sq =>
        simp only [applySwitches]
        exact lineAt_switch_toggleOf lines sq false k
    | some sp =>
      cases hd : d with
      | none =>
        simp only [applySwitches]
        exact lineAt_switch_toggleOf lines sp true k
      | some sq =>
        simp only [applySwitches]
        rw [lineAt_switch]
        split
        · rename_i hin
          rw [lineAt_switch]
          rw [if_neg (show ¬(sp.1 ≤ k ∧ k ≤ sp.2) from by
            have := hdisj sp sq hu hd
            omega)]
          exact Or.inr (Or.inl rfl)
        · exact lineAt_switch_toggleOf lines sp true k
  | usd =>
    cases hu : u with
    | none =>
      cases hd : d with
      | none => exact toggleOf_refl _
      | some sq =>
        simp only [applySwitches]
        exact lineAt_switch_toggleOf lines sq true k
    | some sp =>
      cases hd : d with
      | none =>
        simp only [applySwitches]
        exact lineAt_switch_toggleOf lines sp false k
      | some sq =>
        simp only [applySwitches]
        rw [lineAt_switch]
        split
        · rename_i hin
          rw [lineAt_switch]
          rw [if_neg (show ¬(sq.1 ≤ k ∧ k ≤ sq.2) from by
            have := hdisj sp sq hu hd
            omega)]
          exact Or.inr (Or.inl rfl)
        · exact lineAt_switch_toggleOf lines sq true k

/-- Every line of the patch loop's output is the original line, its
commented form, or its uncommented form. -/
theorem patchGo_toggleOf (mode : SpawnKind) :
    ∀ fuel L i c u s j,
      toggleOf (lineAt L j) (lineAt (patchGo mode fuel L i c u s).1 j) := by
  intro fuel
  induction fuel with
  | zero => intro L i c u s j; exact toggleOf_refl _
  | succ fuel ih =>
    intro L i c u s j
    rw [patchGo]
    by_cases h : i < L.length
    · rw [dif_pos h]
      by_cases hc : cfgStartAt (L.get ⟨i, h⟩) = true
      · rw [if_pos hc]
        dsimp only
        by_cases hj : j < find_cfg_block_end L i + 1
        · rw [patchGo_frame mode fuel _ _ _ _ _ _ hj]
          exact lineAt_applySwitches_toggleOf mode L _ _ j
            (locate_spans_ok L i (find_cfg_block_end L i)).2.2
        · rw [not_lt] at hj
          have hmiss : lineAt (applySwitches mode L
              (locate_spawn_blocks_within L i (find_cfg_block_end L i)).1
              (locate_spawn_blocks_within L i (find_cfg_block_end L i)).2) j
              = lineAt L j := by
            refine lineAt_applySwitches_miss mode L _ _ j ?_ ?_
            · intro sp hsp
              have := ((locate_spans_ok L i (find_cfg_block_end L i)).1 sp hsp).2.2.1
              omega
            · intro sp hsp
              have := ((locate_spans_ok L i
                (find_cfg_block_end L i)).2.1 sp hsp).2.2.1
              omega
          have hrec := ih (applySwitches mode L
              (locate_spawn_blocks_within L i (find_cfg_block_end L i)).1
              (locate_spawn_blocks_within L i (find_cfg_block_end L i)).2)
            (find_cfg_block_end L i + 1) (c + 1)
            (u + if (locate_spawn_blocks_within L i
              (find_cfg_block_end L i)).1.isSome then 1 else 0)
            (s + if (locate_spawn_blocks_within L i
              (find_cfg_block_end L i)).2.isSome then 1 else 0) j
          rw [hmiss] at hrec
          exact hrec
      · rw [if_neg hc]
        exact ih L (i + 1) c u s j
    · rw [dif_neg h]
      exact toggleOf_refl _


theorem ext_lineAt {M N : List Line} (hlen : M.length = N.length)
    (h : ∀ j, lineAt M j = lineAt N j) : M = N := by
  apply List.ext_get?
  intro j
  by_cases hj : j < M.length
  · have h1 : M.get? j = some (lineAt M j) := by
      unfold lineAt
      rw [List.get?_eq_get hj]
      rfl
    have h2 : N.get? j = some (lineAt N j) := by
      unfold lineAt
      rw [List.get?_eq_get (by omega)]
      rfl
    rw [h1, h2, h j]
  · rw [List.get?_eq_none.mpr (by omega), List.get?_eq_none.mpr (by omega)]

/-- A second `applySwitches` with the same spans is invisible when the
first one's effect is already in place. -/
theorem applySwitches_idem_pointwise (mode : SpawnKind) (L M : List Line)
    (u d : Option (Nat × Nat)) (j : Nat)
    (hdisj : ∀ sp sq, u = some sp → d = some sq → sp.2 < sq.1 ∨ sq.2 < sp.1)
    (hT : ∀ sp, targetSpan mode (u, d) = some sp → sp.1 ≤ j → j ≤ sp.2 →
        lineAt M j = uncomment_line (lineAt L j) ∧ singleMark (lineAt L j) = true)
    (hO : ∀ sq, otherSpan mode (u, d) = some sq → sq.1 ≤ j → j ≤ sq.2 →
        lineAt M j = comment_line (lineAt L j)) :
    lineAt (applySwitches mode M u d) j = lineAt M j := by
  by_cases hTm : ∃ sp, targetSpan mode (u, d) = some sp ∧ sp.1 ≤ j ∧ j ≤ sp.2
  · obtain ⟨sp, hsp, hj1, hj2⟩ := hTm
    have hOmiss : ∀ sq, otherSpan mode (u, d) = some sq →
        j < sq.1 ∨ sq.2 < j := by
      intro sq hsq
      cases mode
      · simp only [targetSpan, otherSpan] at hsp hsq
        have := hdisj sp sq hsp hsq
        omega
      · simp only [targetSpan, otherSpan] at hsp hsq
        have := hdisj sq sp hsq hsp
        omega
    rw [lineAt_applySwitches_enable mode M u d sp j hsp hj1 hj2 hOmiss]
    obtain ⟨hline, hsm⟩ := hT sp hsp hj1 hj2
    rw [hline]
    exact uncomment_line_unmarked (by
      simpa [singleMark] using hsm)
  · by_cases hOm : ∃ sq, otherSpan mode (u, d) = some sq ∧ sq.1 ≤ j ∧ j ≤ sq.2
    · obtain ⟨sq, hsq, hj1, hj2⟩ := hOm
      have hTmiss : ∀ sp, targetSpan mode (u, d) = some sp →
          j < sp.1 ∨ sp.2 < j := by
        intro sp hsp
        by_contra hcon
        push_neg at hcon
        exact hTm ⟨sp, hsp, by omega, by omega⟩
      rw [lineAt_applySwitches_disable mode M u d sq j hsq hj1 hj2 hTmiss]
      rw [hO sq hsq hj1 hj2]
      exact comment_line_idem _
    · refine lineAt_applySwitches_miss mode M u d j ?_ ?_
      · intro sp hsp
        by_contra hcon
        push_neg at hcon
        cases mode
        · exact hTm ⟨sp, by simpa [targetSpan] using hsp, by omega, by omega⟩
        · exact hOm ⟨sp, by simpa [otherSpan] using hsp, by omega, by omega⟩
      · intro sp hsp
        by_contra hcon
        push_neg at hcon
        cases mode
        · exact hOm ⟨sp, by simpa [otherSpan] using hsp, by omega, by omega⟩
        · exact hTm ⟨sp, by simpa [targetSpan] using hsp, by omega, by omega⟩

/-- Lockstep idempotence of the patch loop: running the loop again over its
own output (from the same index, with any counters) changes nothing,
provided every line from the current index on is canonically shaped and
single-marked. -/
theorem patchGo_idem (mode : SpawnKind) :
    ∀ (fuel : Nat) (L : List Line) (i c u s c2 u2 s2 : Nat),
      (∀ j, i ≤ j → j < L.length → goodLine (lineAt L j)) →
      (patchGo mode fuel (patchGo mode fuel L i c u s).1 i c2 u2 s2).1
        = (patchGo mode fuel L i c u s).1 := by
  intro fuel
  induction fuel with
  | zero => intro L i c u s c2 u2 s2 _; rfl
  | succ fuel ih =>
    intro L i c u s c2 u2 s2 hgood
    by_cases h : i < L.length
    · by_cases hc : cfgStartAt (L.get ⟨i, h⟩) = true
      · -- region found at i
        have hbei : i ≤ find_cfg_block_end L i := le_find_cfg_block_end L i h
        have hbel : find_cfg_block_end L i < L.length := find_cfg_block_end_lt h
        have hloc := locate_spans_ok L i (find_cfg_block_end L i)
        have hfirst : (patchGo mode (fuel + 1) L i c u s).1
            = (patchGo mode fuel
                (applySwitches mode L
                  (locate_spawn_blocks_within L i (find_cfg_block_end L i)).1
                  (locate_spawn_blocks_within L i (find_cfg_block_end L i)).2)
                (find_cfg_block_end L i + 1) (c + 1)
                (u + if (locate_spawn_blocks_within L i
                  (find_cfg_block_end L i)).1.isSome then 1 else 0)
                (s + if (locate_spawn_blocks_within L i
                  (find_cfg_block_end L i)).2.isSome then 1 else 0)).1 := by
          rw [patchGo, dif_pos h, if_pos hc]
        rw [hfirst]
        set S := locate_spawn_blocks_within L i (find_cfg_block_end L i) with hS
        set L2 := applySwitches mode L S.1 S.2 with hL2
        set L' := (patchGo mode fuel L2 (find_cfg_block_end L i + 1) (c + 1)
          (u + if S.1.isSome then 1 else 0)
          (s + if S.2.isSome then 1 else 0)).1 with hL'
        have hlenL2 : L2.length = L.length := by
          rw [hL2]
          exact applySwitches_length ..
        have hlenL' : L'.length = L.length := by
          rw [hL', patchGo_length, hlenL2]
        have hfrL2 : ∀ j, j ≤ find_cfg_block_end L i → lineAt L' j = lineAt L2 j := by
          intro j hj
          rw [hL']
          exact patchGo_frame mode fuel L2 _ _ _ _ j (by omega)
        have hcl : cfgStartAt (lineAt L i) = true := by
          have : lineAt L i = L.get ⟨i, h⟩ := by
            unfold lineAt
            rw [List.get?_eq_get h]
            rfl
          rw [this]
          exact hc
        have hspan_gt : ∀ sp, (S.1 = some sp ∨ S.2 = some sp) → i < sp.1 := by
          intro sp hsp
          have hge : i ≤ sp.1 ∧ (∃ k, headerOf (lineAt L sp.1) = some k) := by
            rcases hsp with hsp | hsp
            · obtain ⟨a1, -, -, a4, -, -⟩ := hloc.1 sp hsp
              exact ⟨a1, _, a4⟩
            · obtain ⟨a1, -, -, a4, -, -⟩ := hloc.2.1 sp hsp
              exact ⟨a1, _, a4⟩
          obtain ⟨hge1, k, hk⟩ := hge
          rcases Nat.lt_or_ge i sp.1 with hlt | hge2
          · exact hlt
          · exfalso
            have : sp.1 = i := by omega
            rw [this] at hk
            rw [header_ne_cfgStart hk] at hcl
            exact Bool.noConfusion hcl
        have hmissL2 : ∀ j, j ≤ i ∨ find_cfg_block_end L i < j →
            lineAt L2 j = lineAt L j := by
          intro j hj
          rw [hL2]
          refine lineAt_applySwitches_miss mode L _ _ j ?_ ?_
          · intro sp hsp
            have h1 := hspan_gt sp (Or.inl hsp)
            have h2 := (hloc.1 sp hsp).2.2.1
            omega
          · intro sp hsp
            have h1 := hspan_gt sp (Or.inr hsp)
            have h2 := (hloc.2.1 sp hsp).2.2.1
            omega
        have htog : ∀ j, toggleOf (lineAt L j) (lineAt L' j) := by
          intro j
          by_cases hj : j ≤ find_cfg_block_end L i
          · rw [hfrL2 j hj, hL2]
            exact lineAt_applySwitches_toggleOf mode L _ _ j hloc.2.2
          · have hm := hmissL2 j (Or.inr (by omega))
            have hrec := patchGo_toggleOf mode fuel L2
              (find_cfg_block_end L i + 1) (c + 1)
              (u + if S.1.isSome then 1 else 0)
              (s + if S.2.isSome then 1 else 0) j
            rw [← hL', hm] at hrec
            exact hrec
        have hstat : List.Forall₂ statusEq L L' := by
          refine forall₂_of_pointwise L L' (by omega) ?_
          intro j hj
          by_cases hij : i ≤ j
          · exact statusEq_of_toggle (hgood j hij hj) (htog j)
          · have : lineAt L' j = lineAt L j := by
              rw [hfrL2 j (by omega), hmissL2 j (Or.inl (by omega))]
            rw [this]
            exact statusEq_refl _
        have h' : i < L'.length := by omega
        have hlineI : lineAt L' i = lineAt L i := by
          rw [hfrL2 i hbei, hmissL2 i (Or.inl (le_refl i))]
        have hcl' : cfgStartAt (L'.get ⟨i, h'⟩) = true := by
          have : lineAt L' i = L'.get ⟨i, h'⟩ := by
            unfold lineAt
            rw [List.get?_eq_get h']
            rfl
          rw [← this, hlineI]
          exact hcl
        have hbe' : find_cfg_block_end L' i = find_cfg_block_end L i :=
          find_cfg_block_end_congr hstat i
        have hS' : locate_spawn_blocks_within L' i (find_cfg_block_end L' i) = S := by
          rw [hbe', hS]
          exact locate_congr hstat _ _
        have hsecond : (patchGo mode (fuel + 1) L' i c2 u2 s2).1
            = (patchGo mode fuel
                (applySwitches mode L'
                  (locate_spawn_blocks_within L' i (find_cfg_block_end L' i)).1
                  (locate_spawn_blocks_within L' i (find_cfg_block_end L' i)).2)
                (find_cfg_block_end L' i + 1) (c2 + 1)
                (u2 + if (locate_spawn_blocks_within L' i
                  (find_cfg_block_end L' i)).1.isSome then 1 else 0)
                (s2 + if (locate_spawn_blocks_within L' i
                  (find_cfg_block_end L' i)).2.isSome then 1 else 0)).1 := by
          rw [patchGo, dif_pos h', if_pos hcl']
        rw [hsecond, hS', hbe']
        -- the second switch pass is invisible
        have happ : applySwitches mode L' S.1 S.2 = L' := by
          refine ext_lineAt (by rw [applySwitches_length]) ?_
          intro j
          refine applySwitches_idem_pointwise mode L L' S.1 S.2 j hloc.2.2 ?_ ?_
          · intro sp hsp hj1 hj2
            have hbounds : i ≤ sp.1 ∧ sp.1 < sp.2 ∧
                sp.2 ≤ find_cfg_block_end L i := by
              cases mode
              · simp only [targetSpan] at hsp
                obtain ⟨a1, a2, a3, -, -, -⟩ := hloc.1 sp hsp
                exact ⟨a1, a2, a3⟩
              · simp only [targetSpan] at hsp
                obtain ⟨a1, a2, a3, -, -, -⟩ := hloc.2.1 sp hsp
                exact ⟨a1, a2, a3⟩
            have hsp1 : i < sp.1 := by
              refine hspan_gt sp ?_
              cases mode
              · simp only [targetSpan] at hsp
                exact Or.inl hsp
              · simp only [targetSpan] at hsp
                exact Or.inr hsp
            have hOmiss : ∀ sq, otherSpan mode (S.1, S.2) = some sq →
                j < sq.1 ∨ sq.2 < j := by
              intro sq hsq
              cases mode
              · simp only [targetSpan, otherSpan] at hsp hsq
                have := hloc.2.2 sp sq hsp hsq
                omega
              · simp only [targetSpan, otherSpan] at hsp hsq
                have := hloc.2.2 sq sp hsq hsp
                omega
            constructor
            · rw [hfrL2 j (by omega), hL2]
              exact lineAt_applySwitches_enable mode L S.1 S.2 sp j hsp hj1 hj2
                hOmiss
            · exact (hgood j (by omega) (by omega)).2
          · intro sq hsq hj1 hj2
            have hbounds : i ≤ sq.1 ∧ sq.1 < sq.2 ∧
                sq.2 ≤ find_cfg_block_end L i := by
              cases mode
              · simp only [otherSpan] at hsq
                obtain ⟨a1, a2, a3, -, -, -⟩ := hloc.2.1 sq hsq
                exact ⟨a1, a2, a3⟩
              · simp only [otherSpan] at hsq
                obtain ⟨a1, a2, a3, -, -, -⟩ := hloc.1 sq hsq
                exact ⟨a1, a2, a3⟩
            have hTmiss : ∀ sp, targetSpan mode (S.1, S.2) = some sp →
                j < sp.1 ∨ sp.2 < j := by
              intro sp hsp
              cases mode
              · simp only [targetSpan, otherSpan] at hsp hsq
                have := hloc.2.2 sp sq hsp hsq
                omega
              · simp only [targetSpan, otherSpan] at hsp hsq
                have := hloc.2.2 sq sp hsq hsp
                omega
            rw [hfrL2 j (by omega), hL2]
            exact lineAt_applySwitches_disable mode L S.1 S.2 sq j hsq hj1 hj2
              hTmiss
        rw [happ, hL']
        refine ih L2 (find_cfg_block_end L i + 1) (c + 1) _ _ (c2 + 1) _ _ ?_
        intro j hj hjlen
        rw [hmissL2 j (Or.inr (by omega))]
        exact hgood j (by omega) (by omega)
      · -- not a region start: both passes skip to i+1
        have hfirst : (patchGo mode (fuel + 1) L i c u s).1
            = (patchGo mode fuel L (i + 1) c u s).1 := by
          rw [patchGo, dif_pos h, if_neg hc]
        rw [hfirst]
        have h' : i < (patchGo mode fuel L (i + 1) c u s).1.length := by
          rw [patchGo_length]
          exact h
        have hline : lineAt (patchGo mode fuel L (i + 1) c u s).1 i = lineAt L i :=
          patchGo_frame mode fuel L (i + 1) c u s i (by omega)
        have hc' : cfgStartAt ((patchGo mode fuel L (i + 1) c u s).1.get ⟨i, h'⟩)
            = false := by
          have e1 : lineAt (patchGo mode fuel L (i + 1) c u s).1 i
              = (patchGo mode fuel L (i + 1) c u s).1.get ⟨i, h'⟩ := by
            unfold lineAt
            rw [List.get?_eq_get h']
            rfl
          have e2 : lineAt L i = L.get ⟨i, h⟩ := by
            unfold lineAt
            rw [List.get?_eq_get h]
            rfl
          rw [← e1, hline, e2]
          simpa using hc
        rw [patchGo, dif_pos h', if_neg (by simpa [List.get_eq_getElem] using hc')]
        refine ih L (i + 1) c u s c2 u2 s2 ?_
        intro j hj hjlen
        exact hgood j (by omega) hjlen
    · have hfirst : (patchGo mode (fuel + 1) L i c u s).1 = L := by
        rw [patchGo, dif_neg h]
      rw [hfirst, patchGo, dif_neg h]


/-- **C3 counterexample.**  The whole-document patch is not idempotent: on
a document whose URDF span contains the double-marked line `##x`, the first
run's span-wide `uncomment_line` strips one marker (`##x` becomes `#x`) and
the second run strips another (`#x` becomes `x`), so the second run's
output differs from the first run's output (its changed flag would be
true). -/
theorem c3_counterexample :
    (patch_spawn_modes
      (patch_spawn_modes
        "A_CFG = UnitreeArticulationCfg(\nspawn=UnitreeUrdfFileCfg(\n##x\n),\n)\n".toList
        SpawnKind.urdf).1 SpawnKind.urdf).1
    ≠ (patch_spawn_modes
        "A_CFG = UnitreeArticulationCfg(\nspawn=UnitreeUrdfFileCfg(\n##x\n),\n)\n".toList
        SpawnKind.urdf).1 := by
  decide

/-- **C3 (amended).**  The whole-document patch is idempotent on every
document whose lines are single-marked (stripping one marker never exposes
a second one), whose uncommenting keeps each line's terminator and
nonemptiness (no bare-marker lines whose `\s?` would swallow the
terminator), and which has no bare-carriage-return line ending: applying
the spawn-mode patch to the output of a first application returns that
output unchanged, so the second run's changed flag is false. -/
theorem c3_patch_idempotent (src : List Char) (mode : SpawnKind)
    (hp : ∀ l ∈ splitlinesTrue src,
      singleMark l = true ∧ termOf (uncomment_line l) = termOf l ∧
      uncomment_line l ≠ [] ∧ termOf l ≠ ['\r']) :
    (patch_spawn_modes (patch_spawn_modes src mode).1 mode).1
      = (patch_spawn_modes src mode).1 := by
  obtain ⟨hshape, hne, hterm⟩ := GoodSplit_facts (splitlinesTrue_good src)
  set L := splitlinesTrue src with hLdef
  have hmem : ∀ j, j < L.length → singleMark (lineAt L j) = true ∧
      termOf (uncomment_line (lineAt L j)) = termOf (lineAt L j) ∧
      uncomment_line (lineAt L j) ≠ [] ∧ termOf (lineAt L j) ≠ ['\r'] := by
    intro j hj
    refine hp _ ?_
    show lineAt L j ∈ L
    unfold lineAt
    rw [List.get?_eq_get hj]
    exact List.get_mem ..
  set P := patchGo mode L.length L 0 0 0 0 with hP
  have hps1 : patch_spawn_modes src mode = (joinLines P.1, P.2) := rfl
  have hlenP : P.1.length = L.length := by
    rw [hP]
    exact patchGo_length ..
  have htogP : ∀ j, toggleOf (lineAt L j) (lineAt P.1 j) := by
    intro j
    rw [hP]
    exact patchGo_toggleOf mode L.length L 0 0 0 0 j
  have hshapeP : ∀ j, j < P.1.length →
      ∃ b t, lineAt P.1 j = b ++ t ∧ noBreak b = true ∧ validTerm t = true := by
    intro j hj
    obtain ⟨b, t, hl, hb, ht⟩ := hshape j (by omega)
    rcases htogP j with he | he | he
    · exact ⟨b, t, by rw [he, hl], hb, ht⟩
    · obtain ⟨b2, hb2, hnb2, -⟩ := comment_shape hl hb ht
      exact ⟨b2, t, by rw [he, hb2], hnb2, ht⟩
    · obtain ⟨b2, hb2, hnb2⟩ := uncomment_shape hl hb ht (hmem j (by omega)).2.1
      exact ⟨b2, t, by rw [he, hb2], hnb2, ht⟩
  have hneP : ∀ j, j < P.1.length → lineAt P.1 j ≠ [] := by
    intro j hj
    obtain ⟨b, t, hl, hb, ht⟩ := hshape j (by omega)
    rcases htogP j with he | he | he
    · rw [he]
      exact hne j (by omega)
    · obtain ⟨-, -, -, hnn⟩ := comment_shape hl hb ht
      rw [he]
      exact hnn (hne j (by omega))
    · rw [he]
      exact (hmem j (by omega)).2.2.1
  have htermP : ∀ j, j < P.1.length →
      termOf (lineAt P.1 j) = termOf (lineAt L j) := by
    intro j hj
    obtain ⟨b, t, hl, hb, ht⟩ := hshape j (by omega)
    rcases htogP j with he | he | he
    · rw [he]
    · obtain ⟨b2, hb2, hnb2, -⟩ := comment_shape hl hb ht
      rw [he, hb2, termOf_append b2 t hnb2 ht, hl, termOf_append b t hb ht]
    · rw [he]
      exact (hmem j (by omega)).2.1
  have hsj : splitlinesTrue (joinLines P.1) = P.1 := by
    refine splitJoin P.1 hshapeP hneP ?_ ?_
    · intro j hj
      rw [htermP j (by omega)]
      exact hterm j (by omega)
    · intro j hj
      rw [htermP j hj]
      exact (hmem j (by omega)).2.2.2
  rw [hps1]
  show (patch_spawn_modes (joinLines P.1) mode).1 = joinLines P.1
  have hps2 : (patch_spawn_modes (joinLines P.1) mode).1
      = joinLines (patchGo mode (splitlinesTrue (joinLines P.1)).length
          (splitlinesTrue (joinLines P.1)) 0 0 0 0).1 := rfl
  rw [hps2, hsj, hlenP]
  congr 1
  rw [hP]
  exact patchGo_idem mode L.length L 0 0 0 0 0 0 0
    (fun j _ hj => ⟨hshape j hj, (hmem j hj).1⟩)

/-- Witness for the amended C3: a document with one region holding an
uncommented URDF block and a commented USD block satisfies the hypotheses,
and patching it to USD twice changes nothing the second time. -/
theorem c3_witness :
    (∀ l ∈ splitlinesTrue
      ("A_CFG = UnitreeArticulationCfg(\n    spawn=UnitreeUrdfFileCfg(\n        x=1,\n    ),\n    # spawn=UnitreeUsdFileCfg(\n    #     y=2,\n    # ),\n)\n").toList,
      singleMark l = true ∧ termOf (uncomment_line l) = termOf l ∧
      uncomment_line l ≠ [] ∧ termOf l ≠ ['\r']) ∧
    (patch_spawn_modes
      (patch_spawn_modes
        ("A_CFG = UnitreeArticulationCfg(\n    spawn=UnitreeUrdfFileCfg(\n        x=1,\n    ),\n    # spawn=UnitreeUsdFileCfg(\n    #     y=2,\n    # ),\n)\n").toList
        SpawnKind.usd).1 SpawnKind.usd).1
    = (patch_spawn_modes
        ("A_CFG = UnitreeArticulationCfg(\n    spawn=UnitreeUrdfFileCfg(\n        x=1,\n    ),\n    # spawn=UnitreeUsdFileCfg(\n    #     y=2,\n    # ),\n)\n").toList
        SpawnKind.usd).1 :=
  ⟨by decide, c3_patch_idempotent _ SpawnKind.usd (by decide)⟩

end PatchUnitree
